import Mathlib

/-!
# Verification of the Bravia Quad device-protocol client

Shallow embedding of `custom_components/bravia_quad/bravia_quad_client.py`
and the volume-transition controller of `custom_components/bravia_quad/number.py`,
together with proofs of the specified properties.

Modelling conventions:
* Python `int` is `Int`; Python `str` is `String` (Unicode scalar values; lone
  surrogates, which Lean strings cannot hold, are out of the modelled scope).
* Decoded JSON values are the `Json` type below.  Float literals are captured
  textually (`Json.flt`) because IEEE-754 arithmetic is out of scope; no claim
  depends on float values.
* Fallible Python code (raising/ catching) is modelled with `Option`/`Except`.
* `asyncio` suspension is modelled by passing the environment's contribution
  (incoming messages, write success) as explicit arguments; every modelled
  function is total, which reflects that the Python code never blocks forever
  on the modelled paths.
-/

namespace BraviaQuad

/-! ## Constants (from `const.py`) -/

def DEFAULT_PORT : Nat := 33336

def MAX_VOLUME : Int := 100

def MIN_VOLUME : Int := 0

def MAX_REAR_LEVEL : Int := 10

def MIN_REAR_LEVEL : Int := -10

def MAX_BASS_LEVEL : Int := 10

def MIN_BASS_LEVEL : Int := -10

def MAX_BASS_LEVEL_NO_SUB : Int := 2

def MIN_BASS_LEVEL_NO_SUB : Int := 0

def CMD_ID_INITIAL : Int := 10

def CMD_ID_MAX : Int := 1000000

def FEATURE_POWER : String := "main.power"

def FEATURE_VOLUME : String := "main.volumestep"

def FEATURE_INPUT : String := "main.input"

def FEATURE_REAR_LEVEL : String := "main.rearvolumestep"

def FEATURE_BASS_LEVEL : String := "main.bassstep"

def FEATURE_VOICE_ENHANCER : String := "audio.voiceenhancer"

def FEATURE_SOUND_FIELD : String := "audio.soundfield"

def FEATURE_NIGHT_MODE : String := "audio.nightmode"

def FEATURE_HDMI_CEC : String := "hdmi.cec"

def FEATURE_AUTO_STANDBY : String := "system.autostandby"

def POWER_OFF : String := "off"

def VOICE_ENHANCER_OFF : String := "upoff"

def SOUND_FIELD_OFF : String := "off"

def NIGHT_MODE_OFF : String := "off"

def HDMI_CEC_OFF : String := "off"

def AUTO_STANDBY_OFF : String := "off"

/-- Default bass level (MID) — `bravia_quad_client.py` line 54. -/
def DEFAULT_BASS_LEVEL : Int := 1

/-! ## Decoded JSON values

`Json` is the type of values produced by Python's `json` decoder, as used by
`_decode_json_stream`.  A float literal is kept as the matched source text
(`flt`): its numeric (IEEE-754) value is outside the modelled scope, and no
claim depends on it.  `obj` keeps the key/value pairs in Python `dict`
insertion order. -/
inductive Json where
  | null : Json
  | bool (b : Bool) : Json
  | num (n : Int) : Json
  | flt (raw : String) : Json
  | str (s : String) : Json
  | arr (elems : List Json) : Json
  | obj (pairs : List (String × Json)) : Json

/-! ## Python primitives used by the client -/

/-- ASCII fragment of Python `str.isspace` (the characters relevant to the
wire protocol; Unicode space categories beyond these are not modelled). -/
def pyIsSpace (c : Char) : Bool :=
  c = ' ' || c = '\t' || c = '\n' || c = '\r' || c = '\x0b' || c = '\x0c'

/-- JSON whitespace, as in the `json` module's `WHITESPACE` pattern
`[ \t\n\r]*`. -/
def jsonWs (c : Char) : Bool :=
  c = ' ' || c = '\t' || c = '\n' || c = '\r'

def digitVal (c : Char) : Nat :=
  c.toNat - 48

def digitChar (n : Nat) : Char :=
  match n with
  | 0 => '0' | 1 => '1' | 2 => '2' | 3 => '3' | 4 => '4'
  | 5 => '5' | 6 => '6' | 7 => '7' | 8 => '8' | _ => '9'

/-- Decimal digits of a natural number, most significant first. -/
def natToDigits (n : Nat) : List Char :=
  if _h : n < 10 then [digitChar n]
  else natToDigits (n / 10) ++ [digitChar (n % 10)]
termination_by n
decreasing_by
  exact Nat.div_lt_self (by omega) (by omega)

def digitsToNat (ds : List Char) : Nat :=
  ds.foldl (fun a c => a * 10 + digitVal c) 0

/-- Digits of a Python `int` literal as printed by `str`/`json.dumps`. -/
def encInt (n : Int) : List Char :=
  if n < 0 then '-' :: natToDigits n.natAbs else natToDigits n.natAbs

/-- Python `int(s)` for a decimal string: strips surrounding whitespace,
allows one optional sign, then digits with single underscores between
digits (ASCII digits only; Unicode digits are not modelled).
Helper consuming the digits after the first one. -/
def undDigits : List Char → Nat → Option Nat
  | [], acc => some acc
  | '_' :: c :: rest, acc =>
      if c.isDigit then undDigits rest (acc * 10 + digitVal c) else none
  | ['_'], _ => none
  | c :: rest, acc =>
      if c.isDigit then undDigits rest (acc * 10 + digitVal c) else none

def pyIntDigits : List Char → Option Nat
  | [] => none
  | c :: rest => if c.isDigit then undDigits rest (digitVal c) else none

def pyIntOfString (s : String) : Option Int :=
  let cs := (((s.data.dropWhile pyIsSpace).reverse.dropWhile pyIsSpace).reverse)
  match cs with
  | '+' :: rest => (pyIntDigits rest).map (fun n => (n : Int))
  | '-' :: rest => (pyIntDigits rest).map (fun n => -(n : Int))
  | rest => (pyIntDigits rest).map (fun n => (n : Int))

/-- Python `int(value)` on a decoded JSON value.  `bool` is an `int` subtype
in Python; `None`, lists and dicts raise `TypeError` (modelled as `none`);
float truncation is out of the modelled scope (`flt` values never reach the
claims below). -/
def pyInt : Json → Option Int
  | .num n => some n
  | .bool b => some (if b then 1 else 0)
  | .str s => pyIntOfString s
  | _ => none

/-- Python `str(value)` on a decoded JSON value (container `repr` is
approximated; no claim depends on it). -/
def pyStr : Json → String
  | .null => "None"
  | .bool true => "True"
  | .bool false => "False"
  | .num n => String.mk (encInt n)
  | .flt raw => raw
  | .str s => s
  | .arr _ => "list"
  | .obj _ => "dict"

/-- Python `str.upper`, ASCII fragment (sufficient for the `"ACK"`
comparison in `_update_internal_state`). -/
def pyUpper (s : String) : String :=
  String.mk (s.data.map Char.toUpper)

/-! ## Wire codec: the decoder

Model of `json.JSONDecoder().raw_decode` as used by `_decode_json_stream`
(`bravia_quad_client.py` lines 821-851), working on `List Char`.
The staggered whitespace handling of the CPython pure-python scanner
collapses to a `[ \t\n\r]*` skip at each of the points below.
Out of the modelled scope (no claim depends on them): `\uXXXX` escapes whose
code point is a lone surrogate (Lean strings cannot hold them), and the exotic
`int(esc, 16)` tolerance for signs/spaces inside a `\u` escape. -/

def hexVal (c : Char) : Option Nat :=
  if c.isDigit then some (c.toNat - 48)
  else if 'a' ≤ c && c ≤ 'f' then some (c.toNat - 87)
  else if 'A' ≤ c && c ≤ 'F' then some (c.toNat - 55)
  else none

def decodeHex4 (a b c d : Char) : Option Nat :=
  match hexVal a, hexVal b, hexVal c, hexVal d with
  | some x, some y, some z, some w => some (((x * 16 + y) * 16 + z) * 16 + w)
  | _, _, _, _ => none

def isScalarCodePoint (n : Nat) : Bool :=
  decide (n < 0xd800 || (0xe000 ≤ n && n < 0x110000) : Bool)

mutual

/-- `py_scanstring`: scan the body of a JSON string (the opening quote is
already consumed); strict mode, so unescaped control characters are
rejected.  Returns the decoded characters and the input remaining after the
closing quote. -/
def scanString : List Char → Option (List Char × List Char)
  | [] => none
  | c :: rest =>
      if c = '"' then some ([], rest)
      else if c = '\\' then scanEscape rest
      else if c.toNat < 0x20 then none
      else (scanString rest).map (fun p => (c :: p.1, p.2))

/-- The escape handling of `py_scanstring`, after the backslash. -/
def scanEscape : List Char → Option (List Char × List Char)
  | [] => none
  | e :: rest =>
      if e = 'u' then
        match rest with
        | a :: b :: c :: d :: rest2 =>
            match decodeHex4 a b c d with
            | none => none
            | some uni =>
                if 0xd800 ≤ uni && uni ≤ 0xdbff then
                  match rest2 with
                  | '\\' :: 'u' :: a2 :: b2 :: c2 :: d2 :: rest3 =>
                      match decodeHex4 a2 b2 c2 d2 with
                      | some uni2 =>
                          if 0xdc00 ≤ uni2 && uni2 ≤ 0xdfff then
                            let comb := 0x10000 +
                              ((uni - 0xd800) * 0x400 + (uni2 - 0xdc00))
                            (scanString rest3).map
                              (fun p => (Char.ofNat comb :: p.1, p.2))
                          else none
                      | none => none
                  | _ => none
                else if 0xdc00 ≤ uni && uni ≤ 0xdfff then none
                else (scanString rest2).map
                  (fun p => (Char.ofNat uni :: p.1, p.2))
        | _ => none
      else
        let dec : Option Char :=
          if e = '"' then some '"'
          else if e = '\\' then some '\\'
          else if e = '/' then some '/'
          else if e = 'b' then some '\x08'
          else if e = 'f' then some '\x0c'
          else if e = 'n' then some '\n'
          else if e = 'r' then some '\r'
          else if e = 't' then some '\t'
          else none
        match dec with
        | some c => (scanString rest).map (fun p => (c :: p.1, p.2))
        | none => none

end

/-- Fractional part `\.\d+` of the `json` `NUMBER_RE` regex (optional,
backtracks to nothing). -/
def parseFracPart : List Char → Option (List Char × List Char)
  | [] => none
  | c :: rest =>
      if c = '.' then
        let ds := rest.takeWhile Char.isDigit
        if ds = [] then none else some ('.' :: ds, rest.dropWhile Char.isDigit)
      else none

/-- Exponent part `[eE][-+]?\d+` of `NUMBER_RE` (optional). -/
def parseExpPart (cs : List Char) : Option (List Char × List Char) :=
  match cs with
  | e :: rest =>
      if e = 'e' || e = 'E' then
        match rest with
        | s :: rest2 =>
            if s = '+' || s = '-' then
              let ds := rest2.takeWhile Char.isDigit
              if ds = [] then none
              else some (e :: s :: ds, rest2.dropWhile Char.isDigit)
            else
              let ds := rest.takeWhile Char.isDigit
              if ds = [] then none
              else some (e :: ds, rest.dropWhile Char.isDigit)
        | [] => none
      else none
  | [] => none

/-- After the integer digits: try frac and exp.  Integer-only matches become
`Json.num` (`parse_int`); matches with a frac or exp part would become
Python floats and are captured textually as `Json.flt`. -/
def parseNumTail (neg : Bool) (intDs : List Char) (cs : List Char) :
    Option (Json × List Char) :=
  match parseFracPart cs with
  | none =>
      match parseExpPart cs with
      | none =>
          let m : Int := (digitsToNat intDs : Nat)
          some (.num (if neg then -m else m), cs)
      | some (ex, cs2) =>
          some (.flt (String.mk ((if neg then ['-'] else []) ++ intDs ++ ex)), cs2)
  | some (fr, cs1) =>
      match parseExpPart cs1 with
      | none =>
          some (.flt (String.mk ((if neg then ['-'] else []) ++ intDs ++ fr)), cs1)
      | some (ex, cs2) =>
          some (.flt (String.mk ((if neg then ['-'] else []) ++ intDs ++ fr ++ ex)), cs2)

/-- Integer digits `(?:0|[1-9]\d*)` of `NUMBER_RE`: a leading `0` is never
followed by more digits of the same number. -/
def parseNumAfterSign (neg : Bool) (cs : List Char) : Option (Json × List Char) :=
  match cs with
  | [] => none
  | c :: rest =>
      if c = '0' then parseNumTail neg ['0'] rest
      else if c.isDigit then
        parseNumTail neg (c :: rest.takeWhile Char.isDigit)
          (rest.dropWhile Char.isDigit)
      else none

/-- `NUMBER_RE.match` at the current index. -/
def parseNumber : List Char → Option (Json × List Char)
  | [] => none
  | c :: rest =>
      if c = '-' then parseNumAfterSign true rest
      else parseNumAfterSign false (c :: rest)

/-- Python `dict(pairs)`: insert pairs left to right; a repeated key keeps
its original position and takes the latest value. -/
def dictSet (d : List (String × Json)) (k : String) (v : Json) :
    List (String × Json) :=
  match d with
  | [] => [(k, v)]
  | (k0, v0) :: rest =>
      if k0 = k then (k0, v) :: rest else (k0, v0) :: dictSet rest k v

def pyDictOfPairs (pairs : List (String × Json)) : List (String × Json) :=
  pairs.foldl (fun d kv => dictSet d kv.1 kv.2) []

mutual

/-- `scan_once` of the `json` scanner, with `fuel` bounding the recursion
depth (a successful scan always consumes at least one character, so
`fuel := input length` suffices; see `rawDecode`). -/
def parseVal : Nat → List Char → Option (Json × List Char)
  | 0, _ => none
  | _ + 1, [] => none
  | fuel + 1, c :: cs =>
      if c = '"' then
        (scanString cs).map (fun p => (Json.str (String.mk p.1), p.2))
      else if c = '{' then
        match cs.dropWhile jsonWs with
        | '}' :: r2 => some (.obj [], r2)
        | '"' :: r2 => parseMembers fuel r2 []
        | _ => none
      else if c = '[' then
        match cs.dropWhile jsonWs with
        | [] => parseElems fuel [] []
        | c2 :: r2 =>
            if c2 = ']' then some (.arr [], r2)
            else parseElems fuel (c2 :: r2) []
      else if c = 'n' then
        match cs with
        | 'u' :: 'l' :: 'l' :: rest => some (.null, rest)
        | _ => none
      else if c = 't' then
        match cs with
        | 'r' :: 'u' :: 'e' :: rest => some (.bool true, rest)
        | _ => none
      else if c = 'f' then
        match cs with
        | 'a' :: 'l' :: 's' :: 'e' :: rest => some (.bool false, rest)
        | _ => none
      else
        -- `NUMBER_RE` is tried next, then the `NaN`/`Infinity` constants
        match parseNumber (c :: cs) with
        | some r => some r
        | none =>
            if c = 'N' then
              match cs with
              | 'a' :: 'N' :: rest => some (.flt "NaN", rest)
              | _ => none
            else if c = 'I' then
              match cs with
              | 'n' :: 'f' :: 'i' :: 'n' :: 'i' :: 't' :: 'y' :: rest =>
                  some (.flt "Infinity", rest)
              | _ => none
            else if c = '-' then
              match cs with
              | 'I' :: 'n' :: 'f' :: 'i' :: 'n' :: 'i' :: 't' :: 'y' :: rest =>
                  some (.flt "-Infinity", rest)
              | _ => none
            else none

/-- `JSONObject` member loop; the input starts just after the opening quote
of the current key. -/
def parseMembers : Nat → List Char → List (String × Json) →
    Option (Json × List Char)
  | 0, _, _ => none
  | fuel + 1, cs, acc =>
      match scanString cs with
      | none => none
      | some (key, r1) =>
          match r1.dropWhile jsonWs with
          | ':' :: r2 =>
              match parseVal fuel (r2.dropWhile jsonWs) with
              | none => none
              | some (v, r3) =>
                  match r3.dropWhile jsonWs with
                  | '}' :: r4 =>
                      some (.obj (pyDictOfPairs (acc ++ [(String.mk key, v)])), r4)
                  | ',' :: r4 =>
                      match r4.dropWhile jsonWs with
                      | '"' :: r5 => parseMembers fuel r5 (acc ++ [(String.mk key, v)])
                      | _ => none
                  | _ => none
          | _ => none

/-- `JSONArray` element loop; the input starts at the first element (leading
whitespace already skipped). -/
def parseElems : Nat → List Char → List Json → Option (Json × List Char)
  | 0, _, _ => none
  | fuel + 1, cs, acc =>
      match parseVal fuel cs with
      | none => none
      | some (v, r1) =>
          match r1.dropWhile jsonWs with
          | ']' :: r2 => some (.arr (acc ++ [v]), r2)
          | ',' :: r2 => parseElems fuel (r2.dropWhile jsonWs) (acc ++ [v])
          | _ => none

end

/-- `decoder.raw_decode(data, idx)` restricted to the suffix starting at
`idx`: scan one JSON value, returning it and the remaining input, or `none`
for a `JSONDecodeError`. -/
def rawDecode (cs : List Char) : Option (Json × List Char) :=
  parseVal cs.length cs

/-- The loop of `_decode_json_stream`: skip whitespace (`str.isspace`),
stop at end of input, append each decoded message, stop (keeping the
messages decoded so far) at the first `JSONDecodeError`. -/
def decodeLoop : Nat → List Char → List Json → List Json
  | 0, _, acc => acc
  | fuel + 1, cs, acc =>
      match cs.dropWhile pyIsSpace with
      | [] => acc
      | cs1 =>
          match rawDecode cs1 with
          | some (m, rest) => decodeLoop fuel rest (acc ++ [m])
          | none => acc

/-- `_decode_json_stream` (`bravia_quad_client.py` lines 821-851).  Total by
construction: every `JSONDecodeError` is caught and ends the loop, so
decoding never raises for any input string. -/
def decodeJsonStream (data : String) : List Json :=
  decodeLoop data.data.length data.data []

/-! ## Wire codec: canonical encoding of JSON values

`encE` renders a JSON value with no interior whitespace (the compact form a
device may send).  It is the reference text form used to quantify over
"buffers of well-formed JSON objects" in the codec claims. -/

def escChar (c : Char) : List Char :=
  if c = '"' then ['\\', '"']
  else if c = '\\' then ['\\', '\\']
  else [c]

def escChars (cs : List Char) : List Char :=
  (cs.map escChar).flatten

mutual

def encE : Json → List Char
  | .null => ['n', 'u', 'l', 'l']
  | .bool b => if b then ['t', 'r', 'u', 'e'] else ['f', 'a', 'l', 's', 'e']
  | .num n => encInt n
  | .flt raw => raw.data
  | .str s => '"' :: (escChars s.data ++ ['"'])
  | .arr [] => ['[', ']']
  | .arr (v :: vs) => '[' :: encElemsChain v vs
  | .obj [] => ['{', '}']
  | .obj ((k, v) :: kvs) => '{' :: '"' :: encMembersChain k v kvs
termination_by v => sizeOf v
decreasing_by all_goals simp_wf <;> omega

def encElemsChain : Json → List Json → List Char
  | v, [] => encE v ++ [']']
  | v, w :: rest => encE v ++ ',' :: encElemsChain w rest
termination_by v vs => sizeOf v + sizeOf vs
decreasing_by all_goals simp_wf <;> omega

def encMembersChain : String → Json → List (String × Json) → List Char
  | k, v, [] => escChars k.data ++ '"' :: ':' :: encE v ++ ['}']
  | k, v, (k2, v2) :: rest =>
      escChars k.data ++ '"' :: ':' :: encE v ++ ',' :: '"' :: encMembersChain k2 v2 rest
termination_by k v kvs => sizeOf v + sizeOf kvs
decreasing_by all_goals simp_wf <;> omega

end

/-- A string all of whose characters can appear unescaped in the canonical
encoding (no control characters, which `encE` does not escape). -/
def strOk (s : String) : Bool :=
  s.data.all (fun c => decide (0x20 ≤ c.toNat))

def nodupKeys : List (String × Json) → Bool
  | [] => true
  | (k, _) :: rest => !(rest.any (fun kv => kv.1 == k)) && nodupKeys rest

mutual

/-- Well-formedness for the codec claims: no float literals (IEEE values
are out of scope), no control characters in strings (so `encE` needs no
`\uXXXX` escapes), and no duplicate object keys (so `dict(pairs)` is the
identity). -/
def wfB : Json → Bool
  | .null => true
  | .bool _ => true
  | .num _ => true
  | .flt _ => false
  | .str s => strOk s
  | .arr xs => wfList xs
  | .obj kvs => nodupKeys kvs && wfPairs kvs
termination_by v => sizeOf v
decreasing_by all_goals simp_wf <;> omega

def wfList : List Json → Bool
  | [] => true
  | v :: rest => wfB v && wfList rest
termination_by xs => sizeOf xs
decreasing_by all_goals simp_wf <;> omega

def wfPairs : List (String × Json) → Bool
  | [] => true
  | (k, v) :: rest => strOk k && wfB v && wfPairs rest
termination_by kvs => sizeOf kvs
decreasing_by all_goals simp_wf <;> omega

end

mutual

/-- Recursion-depth bound used as parser fuel in the roundtrip lemmas. -/
def jsize : Json → Nat
  | .arr xs => 1 + jsizeList xs
  | .obj kvs => 1 + jsizePairs kvs
  | _ => 1
termination_by v => sizeOf v
decreasing_by all_goals simp_wf <;> omega

def jsizeList : List Json → Nat
  | [] => 0
  | v :: rest => 1 + jsize v + jsizeList rest
termination_by xs => sizeOf xs
decreasing_by all_goals simp_wf <;> omega

def jsizePairs : List (String × Json) → Nat
  | [] => 0
  | (_, v) :: rest => 1 + jsize v + jsizePairs rest
termination_by kvs => sizeOf kvs
decreasing_by all_goals simp_wf <;> omega

end

/-! ## Client state (`BraviaQuadClient.__init__`) -/

/-- An inbound message dict, as read by `_process_incoming_message` through
`message.get(...)`: each field is `none` when the key is missing.  (The
`if not message` guard on an empty dict is behaviourally subsumed: an empty
dict yields `None` for every `get`, which takes the same path.) -/
structure Msg where
  id : Option Int := none
  mtype : Option String := none
  feature : Option String := none
  value : Option Json := none

/-- The state of an `asyncio.Future` held in `_pending_responses`.
`future.done()` is true for all but `pending`. -/
inductive FutureState where
  | pending : FutureState
  | done (result : Msg) : FutureState
  | failed (errMessage : String) : FutureState
  | cancelled : FutureState

def FutureState.isDone : FutureState → Bool
  | .pending => false
  | _ => true

/-- Status of the `_listener_task` handle. -/
inductive TaskState where
  | running : TaskState
  | finished : TaskState

/-- The mutable fields of `BraviaQuadClient`, one per attribute assigned in
`__init__` (`bravia_quad_client.py` lines 60-83).  `_reader`/`_writer`
presence is a flag; notification callbacks are opaque handles (`Nat`). -/
structure ClientState where
  host : String
  port : Nat
  name : String
  reader : Bool
  writer : Bool
  connected : Bool
  listening : Bool
  notificationCallbacks : List (String × List Nat)
  powerState : String
  volume : Int
  input : String
  rearLevel : Int
  bassLevel : Int
  voiceEnhancer : String
  soundField : String
  nightMode : String
  hdmiCec : String
  autoStandby : String
  commandIdCounter : Int
  pendingResponses : List (Int × FutureState)
  listenerTask : Option TaskState

/-- `BraviaQuadClient.__init__`. -/
def initClientState (host name : String) : ClientState where
  host := host
  port := DEFAULT_PORT
  name := name
  reader := false
  writer := false
  connected := false
  listening := false
  notificationCallbacks := []
  powerState := POWER_OFF
  volume := 0
  input := "tv"
  rearLevel := 0
  bassLevel := DEFAULT_BASS_LEVEL
  voiceEnhancer := VOICE_ENHANCER_OFF
  soundField := SOUND_FIELD_OFF
  nightMode := NIGHT_MODE_OFF
  hdmiCec := HDMI_CEC_OFF
  autoStandby := AUTO_STANDBY_OFF
  commandIdCounter := CMD_ID_INITIAL
  pendingResponses := []
  listenerTask := none

/-! ## Feature state cache (`_update_internal_state` and typed setters) -/

/-- `_update_power_state`: `self._power_state = str(value)`. -/
def updatePowerState (st : ClientState) (v : Json) : Option ClientState :=
  some { st with powerState := pyStr v }

/-- `_update_volume_state`: `self._volume = int(value)` — note: no range
check in the source, unlike `_update_rear_level_state` and
`_update_bass_level_state`.  `none` models `int(value)` raising. -/
def updateVolumeState (st : ClientState) (v : Json) : Option ClientState :=
  match pyInt v with
  | some n => some { st with volume := n }
  | none => none

/-- `_update_input_state`. -/
def updateInputState (st : ClientState) (v : Json) : Option ClientState :=
  some { st with input := pyStr v }

/-- `_update_rear_level_state`: parse, then apply only within
`MIN_REAR_LEVEL..MAX_REAR_LEVEL`. -/
def updateRearLevelState (st : ClientState) (v : Json) : Option ClientState :=
  match pyInt v with
  | some n =>
      some (if MIN_REAR_LEVEL ≤ n ∧ n ≤ MAX_REAR_LEVEL then
        { st with rearLevel := n } else st)
  | none => none

/-- `_update_bass_level_state`: parse, then apply only within
`MIN_BASS_LEVEL..MAX_BASS_LEVEL`. -/
def updateBassLevelState (st : ClientState) (v : Json) : Option ClientState :=
  match pyInt v with
  | some n =>
      some (if MIN_BASS_LEVEL ≤ n ∧ n ≤ MAX_BASS_LEVEL then
        { st with bassLevel := n } else st)
  | none => none

def updateVoiceEnhancerState (st : ClientState) (v : Json) : Option ClientState :=
  some { st with voiceEnhancer := pyStr v }

def updateSoundFieldState (st : ClientState) (v : Json) : Option ClientState :=
  some { st with soundField := pyStr v }

def updateNightModeState (st : ClientState) (v : Json) : Option ClientState :=
  some { st with nightMode := pyStr v }

def updateHdmiCecState (st : ClientState) (v : Json) : Option ClientState :=
  some { st with hdmiCec := pyStr v }

def updateAutoStandbyState (st : ClientState) (v : Json) : Option ClientState :=
  some { st with autoStandby := pyStr v }

/-- The `feature_handlers` dispatch table of `_update_internal_state`. -/
def featureHandler (feature : String) :
    Option (ClientState → Json → Option ClientState) :=
  if feature = FEATURE_POWER then some updatePowerState
  else if feature = FEATURE_VOLUME then some updateVolumeState
  else if feature = FEATURE_INPUT then some updateInputState
  else if feature = FEATURE_REAR_LEVEL then some updateRearLevelState
  else if feature = FEATURE_BASS_LEVEL then some updateBassLevelState
  else if feature = FEATURE_VOICE_ENHANCER then some updateVoiceEnhancerState
  else if feature = FEATURE_SOUND_FIELD then some updateSoundFieldState
  else if feature = FEATURE_NIGHT_MODE then some updateNightModeState
  else if feature = FEATURE_HDMI_CEC then some updateHdmiCecState
  else if feature = FEATURE_AUTO_STANDBY then some updateAutoStandbyState
  else none

/-- Is `value` the acknowledgment sentinel: a Python `str` whose `.upper()`
equals `"ACK"`? -/
def isAckJson : Json → Bool
  | .str s => pyUpper s = "ACK"
  | _ => false

/-- `_update_internal_state(feature, value)` (lines 877-903): skip when the
feature is missing or empty, skip `"ACK"` acknowledgments (any case), then
route to the typed setter; a `ValueError`/`TypeError` from the setter is
caught and leaves the state unchanged. -/
def updateInternalState (st : ClientState) (feature : Option String)
    (value : Json) : ClientState :=
  match feature with
  | none => st
  | some f =>
      if f = "" then st
      else if isAckJson value then st
      else
        match featureHandler f with
        | none => st
        | some h =>
            match h st value with
            | some st2 => st2
            | none => st

/-! ## Notification callback registry -/

/-- `register_notification_callback` (lines 662-666): create the feature's
list on first use (Python dicts append new keys at the end), then append
the handle. -/
def registerNotificationCallback (st : ClientState) (feature : String)
    (cb : Nat) : ClientState :=
  let cbs := st.notificationCallbacks
  let cbs2 :=
    if cbs.any (fun p => p.1 == feature) then
      cbs.map (fun p => if p.1 == feature then (p.1, p.2 ++ [cb]) else p)
    else cbs ++ [(feature, [cb])]
  { st with notificationCallbacks := cbs2 }

/-- Modelled from the spec: `unregister_notification_callback(feature,
callback)` is part of the collaborator-facing surface ("mapping from feature
name to an ordered list of callback handles; append-only registration,
removable by exact handle"), but its definition is absent from the
repository's client source — only callers (`media_player.py`, lines 249-263)
and test mocks reference it.  Removal by exact handle: drop the first
occurrence of the handle from that feature's list (no-op when absent). -/
def unregisterNotificationCallback (st : ClientState) (feature : String)
    (cb : Nat) : ClientState :=
  { st with
    notificationCallbacks :=
      st.notificationCallbacks.map
        (fun p => if p.1 == feature then (p.1, p.2.erase cb) else p) }

/-- The handles `_dispatch_notification_callbacks` (lines 949-967) invokes,
in order, for a notification on `feature`: every callback registered for the
feature (a raising callback is logged and does not stop the iteration, so
it still appears in the invocation order). -/
def dispatchedCallbacks (st : ClientState) (feature : Option String) : List Nat :=
  match feature with
  | none => []
  | some f =>
      if f = "" then []
      else
        match st.notificationCallbacks.find? (fun p => p.1 == f) with
        | some p => p.2
        | none => []

/-! ## Command/response correlation -/

/-- `_get_next_command_id` (lines 814-819): increment, wrap to
`CMD_ID_INITIAL` past `CMD_ID_MAX`; the new counter value is the id. -/
def nextCommandId (counter : Int) : Int :=
  let c := counter + 1
  if c > CMD_ID_MAX then CMD_ID_INITIAL else c

def pendingLookup (pend : List (Int × FutureState)) (id : Int) :
    Option FutureState :=
  (pend.find? (fun p => p.1 == id)).map Prod.snd

def pendingSet : List (Int × FutureState) → Int → FutureState →
    List (Int × FutureState)
  | [], id, f => [(id, f)]
  | p :: rest, id, f =>
      if p.1 == id then (p.1, f) :: rest else p :: pendingSet rest id f

def pendingErase (pend : List (Int × FutureState)) (id : Int) :
    List (Int × FutureState) :=
  pend.filter (fun p => p.1 != id)

/-- `_resolve_pending_response` (lines 969-977): no-op without an `id`;
resolve the matching future only if present and not yet done. -/
def resolvePendingResponse (st : ClientState) (m : Msg) : ClientState :=
  match m.id with
  | none => st
  | some id =>
      match pendingLookup st.pendingResponses id with
      | some .pending =>
          { st with pendingResponses := pendingSet st.pendingResponses id (.done m) }
      | _ => st

/-- `_process_incoming_message` (lines 853-875): resolve futures for
`result` messages, then unconditionally update the cache (a missing value
key reads as Python `None`, i.e. JSON null).  Callback dispatch for
`notify` messages is observed through `dispatchedCallbacks`. -/
def processIncomingMessage (st : ClientState) (m : Msg) : ClientState :=
  let st1 := if m.mtype = some "result" then resolvePendingResponse st m else st
  updateInternalState st1 m.feature (m.value.getD .null)

/-! ## `async_send_command` (lines 152-201)

The cooperative-concurrency environment is passed explicitly: `connectOk`
(whether `async_connect` would succeed), `writeOk` (whether the socket
write/drain succeeds), and `incoming` — the messages the notification loop
processes while this call awaits its future.  On timeout the source cancels
the future and returns `None`; the cancelled future is popped in the
`finally` clause either way, so the cancellation is not separately
observable in the final state. -/

inductive PyErr where
  | connectionError (msg : String)

structure SendResult where
  result : Except PyErr (Option Msg)
  state : ClientState

/-- `async_listen_for_notifications` when the listener is not running:
start the notification loop task (which marks `_listening`). -/
def ensureListener (st1 : ClientState) : ClientState :=
  { st1 with listenerTask := some .running, listening := true }

/-- The response-wait phase of `async_send_command` (lines 190-201): the
listener loop processes the `incoming` messages while the caller awaits its
future; the future, registered under `commandId`, resolves to the first
`result` message carrying that id; the `finally` clause pops the pending
entry whatever the outcome (on timeout the future is first cancelled, which
is unobservable once the entry is popped). -/
def awaitResponse (st3 : ClientState) (commandId : Int)
    (incoming : List Msg) : Option Msg × ClientState :=
  let st4 := incoming.foldl processIncomingMessage st3
  let response :=
    match pendingLookup st4.pendingResponses commandId with
    | some (.done m) => some m
    | _ => none
  (response, { st4 with
    pendingResponses := pendingErase st4.pendingResponses commandId })

def asyncSendCommand (st0 : ClientState) (cmd : List (String × Json))
    (connectOk writeOk : Bool) (incoming : List Msg) : SendResult :=
  -- `if not self._connected: await self.async_connect()`
  match
    (if st0.connected then some st0
     else if connectOk then
       some { st0 with reader := true, writer := true, connected := true }
     else none) with
  | none => ⟨.error (.connectionError "connect failed"), { st0 with connected := false }⟩
  | some st1 =>
      if ¬ (st1.writer ∧ st1.reader) then
        ⟨.error (.connectionError "Not connected to device"), st1⟩
      else
        -- ensure the notification listener is running
        let st2 :=
          match st1.listenerTask with
          | some .running => st1
          | _ => ensureListener st1
        -- critical section: copy the dict, assign the id, register the future
        let commandId := nextCommandId st2.commandIdCounter
        let _wire := dictSet cmd "id" (.num commandId)
        let st3 := { st2 with
          commandIdCounter := commandId,
          pendingResponses := pendingSet st2.pendingResponses commandId .pending }
        if ¬ writeOk then
          ⟨.error (.connectionError "write failed"),
            { st3 with pendingResponses := pendingErase st3.pendingResponses commandId }⟩
        else
          let outcome := awaitResponse st3 commandId incoming
          ⟨.ok outcome.1, outcome.2⟩

/-! ## `async_disconnect` (lines 104-126) -/

/-- Returns the new client state together with the final states of the
futures that were in the Pending Command Table (their callers still hold
them after the table is cleared): every not-yet-done future is failed with
`ConnectionError("Disconnected")`. -/
def asyncDisconnect (st : ClientState) : ClientState × List (Int × FutureState) :=
  let settled := st.pendingResponses.map
    (fun p => (p.1, if p.2.isDone then p.2 else .failed "Disconnected"))
  ({ st with
      listening := false
      listenerTask := none
      reader := false
      writer := false
      connected := false
      pendingResponses := [] },
    settled)

/-! ## `async_detect_subwoofer` (lines 605-660)

Each `async_send_command` during detection is abstracted by the response
the environment returns for it (the correlator plumbing is modelled by
`asyncSendCommand` above); the commands issued are recorded as `Cmd`
values (the id field is assigned by the correlator, not chosen here). -/

structure Cmd where
  ctype : String
  feature : String
  value : Option Json := none

/-- The `response and response.get("type") == "result" and
response.get("value") == "ACK"` pattern (exact, case-sensitive comparison
— unlike the cache's case-insensitive ACK check). -/
def isAckResponse (r : Option Msg) : Bool :=
  match r with
  | some m =>
      (m.mtype == some "result") &&
        (match m.value with
         | some (.str s) => s == "ACK"
         | _ => false)
  | none => false

/-- `async_get_bass_level` (lines 582-603): send a `get`, and on a
well-formed in-range response update the cache; otherwise return the cached
level. -/
def asyncGetBassLevel (st : ClientState) (resp : Option Msg) :
    Int × ClientState × Cmd :=
  let cmd : Cmd := { ctype := "get", feature := FEATURE_BASS_LEVEL }
  match resp with
  | some m =>
      if (m.mtype == some "result") && (m.feature == some FEATURE_BASS_LEVEL) then
        match pyInt (m.value.getD (.num DEFAULT_BASS_LEVEL)) with
        | some n =>
            if MIN_BASS_LEVEL ≤ n ∧ n ≤ MAX_BASS_LEVEL then
              (n, { st with bassLevel := n }, cmd)
            else (st.bassLevel, st, cmd)
        | none => (st.bassLevel, st, cmd)
      else (st.bassLevel, st, cmd)
  | none => (st.bassLevel, st, cmd)

/-- `async_detect_subwoofer`: returns the boolean result, the final state,
and the commands sent, in order. -/
def asyncDetectSubwoofer (st : ClientState)
    (respGet respProbe _respRevert : Option Msg) :
    Bool × ClientState × List Cmd :=
  let r0 := asyncGetBassLevel st respGet
  let currentLevel := r0.1
  let st1 := r0.2.1
  let getCmd := r0.2.2
  if currentLevel < MIN_BASS_LEVEL_NO_SUB ∨ currentLevel > MAX_BASS_LEVEL_NO_SUB then
    (true, st1, [getCmd])
  else
    let probe : Cmd :=
      { ctype := "set", feature := FEATURE_BASS_LEVEL, value := some (.num (-1)) }
    if isAckResponse respProbe then
      let revert : Cmd :=
        { ctype := "set", feature := FEATURE_BASS_LEVEL, value := some (.num currentLevel) }
      (true, { st1 with bassLevel := currentLevel }, [getCmd, probe, revert])
    else
      (false, st1, [getCmd, probe])

/-! ## Dict heap for the frame property of `async_send_command`

Python dicts are mutable heap objects; to state that the caller's command
dict is never mutated (lines 169-183: `command = dict(command)` rebinds the
local name to a fresh copy before `command["id"] = command_id`), dict
references and a heap are modelled explicitly. -/

abbrev PyDict := List (String × Json)

structure DictHeap where
  cells : List (Nat × PyDict)
  next : Nat

/-- Every allocated reference is below the allocation counter. -/
def heapWFB (h : DictHeap) : Bool :=
  h.cells.all (fun p => p.1 < h.next)

def readDict (h : DictHeap) (r : Nat) : PyDict :=
  ((h.cells.find? (fun p => p.1 == r)).map Prod.snd).getD []

def allocDict (h : DictHeap) (d : PyDict) : Nat × DictHeap :=
  (h.next, ⟨h.cells ++ [(h.next, d)], h.next + 1⟩)

def writeDictKey (h : DictHeap) (r : Nat) (k : String) (v : Json) : DictHeap :=
  ⟨h.cells.map (fun p => if p.1 == r then (p.1, dictSet p.2 k v) else p), h.next⟩

/-- The id-assignment section of `async_send_command` (lines 169-183):
`command = dict(command)` allocates a shallow copy; the id is written to
the copy.  Returns the heap, the reference the local `command` name holds
afterwards, the assigned `command_id`, and the updated counter. -/
def sendCommandAssignId (h : DictHeap) (callerRef : Nat) (counter : Int) :
    DictHeap × Nat × Int × Int :=
  let commandId := nextCommandId counter
  let alloc := allocDict h (readDict h callerRef)
  let h3 := writeDictKey alloc.2 alloc.1 "id" (.num commandId)
  (h3, alloc.1, commandId, commandId)

/-! ## Volume transition controller (`number.py` lines 98-174)

The controller's observable actions are modelled as an event trace.  In the
transition path the entity sets its displayed value and writes state
*synchronously*, before the background task is created; the task's first
action is an `asyncio.sleep`, so no step command can complete before the
displayed value is already the target.  `ok v` tells whether the
`async_set_volume(v)` step command reports success. -/

inductive TransitionEvent where
  | setDisplayed (n : Int)
  | writeHaState
  | sleepMs (ms : Int)
  | sendSetVolume (n : Int)

/-- The `for i in range(1, steps + 1)` loop of `_async_volume_transition`:
wait, then send the step; `break` after a failed step. -/
def transitionLoop (startVolume stepIncrement intervalMs : Int)
    (ok : Int → Bool) : Nat → Nat → List TransitionEvent
  | _, 0 => []
  | i, remaining + 1 =>
      let nextVolume := startVolume + (i : Int) * stepIncrement
      if ok nextVolume then
        .sleepMs intervalMs :: .sendSetVolume nextVolume ::
          transitionLoop startVolume stepIncrement intervalMs ok (i + 1) remaining
      else
        [.sleepMs intervalMs, .sendSetVolume nextVolume]

/-- `_async_volume_transition(start, end, interval_ms, generation)`
(lines 142-174), as the trace of its waits and step commands. -/
def volumeTransitionTrace (startVolume endVolume intervalMs : Int)
    (ok : Int → Bool) : List TransitionEvent :=
  let steps := (endVolume - startVolume).natAbs
  if steps = 0 then []
  else
    let stepIncrement : Int := if endVolume > startVolume then 1 else -1
    transitionLoop startVolume stepIncrement intervalMs ok 1 steps

structure SetValueOutcome where
  syncEvents : List TransitionEvent
  taskEvents : List TransitionEvent

/-- `async_set_native_value` (lines 98-132): direct set when the interval
is non-positive or there is nothing to do; otherwise display the target
immediately and run the transition as a background task. -/
def asyncSetNativeValue (currentValue targetValue intervalMs : Int)
    (ok : Int → Bool) : SetValueOutcome :=
  if intervalMs ≤ 0 ∨ currentValue = targetValue then
    { syncEvents :=
        .sendSetVolume targetValue ::
          (if ok targetValue then [.setDisplayed targetValue, .writeHaState] else [])
      taskEvents := [] }
  else
    { syncEvents := [.setDisplayed targetValue, .writeHaState]
      taskEvents := volumeTransitionTrace currentValue targetValue intervalMs ok }

/-- The step-command values of a trace, in order. -/
def sentVolumes (evs : List TransitionEvent) : List Int :=
  evs.filterMap (fun e => match e with | .sendSetVolume n => some n | _ => none)

/-- Truncate a planned step list after the first failing step (the loop
sends the failing command, sees `success == False`, and breaks). -/
def stopAfterFirstFail (ok : Int → Bool) : List Int → List Int
  | [] => []
  | n :: rest => n :: (if ok n then stopAfterFirstFail ok rest else [])

/-! ## Helper lemmas: the feature-state cache -/

theorem featureVolume_ne : FEATURE_VOLUME ≠ "" := by decide

theorem featureRear_ne : FEATURE_REAR_LEVEL ≠ "" := by decide

theorem featureBass_ne : FEATURE_BASS_LEVEL ≠ "" := by decide

theorem featureHandler_volume :
    featureHandler FEATURE_VOLUME = some updateVolumeState := by rfl

theorem featureHandler_rear :
    featureHandler FEATURE_REAR_LEVEL = some updateRearLevelState := by rfl

theorem featureHandler_bass :
    featureHandler FEATURE_BASS_LEVEL = some updateBassLevelState := by rfl

/-- Reduction of `_update_internal_state` on a non-empty feature with a
non-ACK value whose handler is known. -/
theorem updateInternalState_some (st : ClientState) (v : Json) (f : String)
    (hf : f ≠ "") (hack : isAckJson v = false)
    (h : ClientState → Json → Option ClientState)
    (hfh : featureHandler f = some h) :
    updateInternalState st (some f) v =
      (match h st v with | some st2 => st2 | none => st) := by
  unfold updateInternalState
  simp [hf, hack, hfh]

set_option maxHeartbeats 1000000 in
theorem updateInternalState_pending (s : ClientState) (f : Option String)
    (v : Json) :
    (updateInternalState s f v).pendingResponses = s.pendingResponses := by
  unfold updateInternalState
  cases f with
  | none => rfl
  | some g =>
      by_cases hg : g = ""
      · simp [hg]
      · by_cases hack : isAckJson v
        · simp [hg, hack]
        · simp only [hg, hack, if_false, Bool.false_eq_true, if_neg,
            not_false_eq_true]
          cases hfh : featureHandler g with
          | none => rfl
          | some h =>
              unfold featureHandler at hfh
              split_ifs at hfh <;> injection hfh with he <;> subst he
              · rfl
              · show (match updateVolumeState s v with
                    | some st2 => st2 | none => s).pendingResponses =
                  s.pendingResponses
                unfold updateVolumeState
                cases hpi : pyInt v <;> rfl
              · rfl
              · show (match updateRearLevelState s v with
                    | some st2 => st2 | none => s).pendingResponses =
                  s.pendingResponses
                unfold updateRearLevelState
                cases hpi : pyInt v with
                | none => rfl
                | some n =>
                    show (if MIN_REAR_LEVEL ≤ n ∧ n ≤ MAX_REAR_LEVEL then
                        { s with rearLevel := n } else s).pendingResponses =
                      s.pendingResponses
                    split <;> rfl
              · show (match updateBassLevelState s v with
                    | some st2 => st2 | none => s).pendingResponses =
                  s.pendingResponses
                unfold updateBassLevelState
                cases hpi : pyInt v with
                | none => rfl
                | some n =>
                    show (if MIN_BASS_LEVEL ≤ n ∧ n ≤ MAX_BASS_LEVEL then
                        { s with bassLevel := n } else s).pendingResponses =
                      s.pendingResponses
                    split <;> rfl
              · rfl
              · rfl
              · rfl
              · rfl
              · rfl

/-- C8 helper: every branch of `_update_internal_state` short-circuits on an
acknowledgment value. -/
theorem updateInternalState_ack (s : ClientState) (f : Option String)
    (v : Json) (hack : isAckJson v = true) :
    updateInternalState s f v = s := by
  unfold updateInternalState
  cases f with
  | none => rfl
  | some g => by_cases hg : g = "" <;> simp [hg, hack]

/-- C8: applying a cache update whose value is the acknowledgment sentinel
`"ACK"` in any letter case leaves every cached feature value unchanged (the
update is the identity on the client state, for every feature). -/
theorem ackUpdateIsIdentity (st : ClientState) (feature : Option String)
    (s : String) (h : pyUpper s = "ACK") :
    updateInternalState st feature (.str s) = st :=
  updateInternalState_ack st feature (.str s) (by simp [isAckJson, h])

theorem ackUpdateIsIdentityWitness :
    pyUpper "aCk" = "ACK" ∧
      updateInternalState (initClientState "host" "name")
          (some FEATURE_VOLUME) (.str "aCk") = initClientState "host" "name" :=
  ⟨by decide, ackUpdateIsIdentity (initClientState "host" "name")
    (some FEATURE_VOLUME) "aCk" (by decide)⟩

/-- C1 counterexample: through the cache-update path, the out-of-range
volume value 150 is applied (the cache does not keep its prior value 0),
because `_update_volume_state` has no range check. -/
theorem volumeUpdateRangeCounterexample :
    (updateInternalState (initClientState "host" "name")
        (some FEATURE_VOLUME) (.num 150)).volume = 150 ∧
      (initClientState "host" "name").volume = 0 ∧
      ¬ ((150 : Int) ≤ MAX_VOLUME) :=
  ⟨rfl, rfl, by decide⟩

/-- C1 (amended): on the cache-update path, rear level and bass level parse
and apply only within −10..10 (otherwise the cache keeps its prior value),
and unparsable values always leave the cache unchanged; the volume cache,
however, is set to any value that parses as an integer, with no range
check. -/
theorem numericCacheUpdateAmended (st : ClientState) (v : Json) :
    (∀ n : Int, isAckJson v = false → pyInt v = some n →
       updateInternalState st (some FEATURE_VOLUME) v = { st with volume := n } ∧
       updateInternalState st (some FEATURE_REAR_LEVEL) v =
         (if MIN_REAR_LEVEL ≤ n ∧ n ≤ MAX_REAR_LEVEL then
            { st with rearLevel := n } else st) ∧
       updateInternalState st (some FEATURE_BASS_LEVEL) v =
         (if MIN_BASS_LEVEL ≤ n ∧ n ≤ MAX_BASS_LEVEL then
            { st with bassLevel := n } else st)) ∧
    (pyInt v = none → isAckJson v = false →
       updateInternalState st (some FEATURE_VOLUME) v = st ∧
       updateInternalState st (some FEATURE_REAR_LEVEL) v = st ∧
       updateInternalState st (some FEATURE_BASS_LEVEL) v = st) := by
  constructor
  · intro n hack hn
    refine ⟨?_, ?_, ?_⟩
    · rw [updateInternalState_some st v _ featureVolume_ne hack _
        featureHandler_volume]
      unfold updateVolumeState
      rw [hn]
    · rw [updateInternalState_some st v _ featureRear_ne hack _
        featureHandler_rear]
      unfold updateRearLevelState
      rw [hn]
    · rw [updateInternalState_some st v _ featureBass_ne hack _
        featureHandler_bass]
      unfold updateBassLevelState
      rw [hn]
  · intro hn hack
    refine ⟨?_, ?_, ?_⟩
    · rw [updateInternalState_some st v _ featureVolume_ne hack _
        featureHandler_volume]
      unfold updateVolumeState
      rw [hn]
    · rw [updateInternalState_some st v _ featureRear_ne hack _
        featureHandler_rear]
      unfold updateRearLevelState
      rw [hn]
    · rw [updateInternalState_some st v _ featureBass_ne hack _
        featureHandler_bass]
      unfold updateBassLevelState
      rw [hn]

theorem numericCacheUpdateAmendedWitness :
    updateInternalState (initClientState "host" "name")
        (some FEATURE_VOLUME) (.num 150) =
      { initClientState "host" "name" with volume := 150 } ∧
    updateInternalState (initClientState "host" "name")
        (some FEATURE_REAR_LEVEL) (.num 150) = initClientState "host" "name" := by
  have h := (numericCacheUpdateAmended (initClientState "host" "name")
    (.num 150)).1 150 rfl rfl
  refine ⟨h.1, ?_⟩
  rw [h.2.1, if_neg (by decide)]

/-! ## C4: disconnect -/

/-- C4: for every state with pending command entries, `async_disconnect`
fails each not-yet-done future with a `ConnectionError("Disconnected")`,
leaves the Pending Command Table empty, settles exactly as many futures as
there were entries (already-done futures keep their results), and a second
`async_disconnect` is a no-op: it returns the same state and settles no
futures. -/
theorem disconnectFailsPendingAndIsIdempotent (st : ClientState) :
    (asyncDisconnect st).1.pendingResponses = [] ∧
    (asyncDisconnect st).2.length = st.pendingResponses.length ∧
    (∀ id : Int, (id, FutureState.pending) ∈ st.pendingResponses →
       (id, FutureState.failed "Disconnected") ∈ (asyncDisconnect st).2) ∧
    (∀ (id : Int) (f : FutureState), (id, f) ∈ st.pendingResponses →
       f.isDone = true → (id, f) ∈ (asyncDisconnect st).2) ∧
    asyncDisconnect (asyncDisconnect st).1 = ((asyncDisconnect st).1, []) := by
  refine ⟨rfl, by simp [asyncDisconnect], ?_, ?_, rfl⟩
  · intro id hmem
    have := List.mem_map_of_mem
      (f := fun p : Int × FutureState =>
        (p.1, if p.2.isDone then p.2 else FutureState.failed "Disconnected")) hmem
    simpa [asyncDisconnect, FutureState.isDone] using this
  · intro id f hmem hdone
    have := List.mem_map_of_mem
      (f := fun p : Int × FutureState =>
        (p.1, if p.2.isDone then p.2 else FutureState.failed "Disconnected")) hmem
    simpa [asyncDisconnect, hdone] using this

theorem disconnectFailsPendingWitness :
    ((11 : Int), FutureState.pending) ∈
        ({ initClientState "host" "name" with
            connected := true
            pendingResponses := [(11, .pending), (12, .pending)] } :
          ClientState).pendingResponses ∧
      ((11 : Int), FutureState.failed "Disconnected") ∈
        (asyncDisconnect { initClientState "host" "name" with
            connected := true
            pendingResponses := [(11, .pending), (12, .pending)] }).2 := by
  refine ⟨by simp, ?_⟩
  exact (disconnectFailsPendingAndIsIdempotent _).2.2.1 11 (by simp)

/-! ## C9: subwoofer detection -/

/-- `async_get_bass_level` always sends the same `get` command, whatever
the response. -/
theorem asyncGetBassLevel_cmd (st : ClientState) (resp : Option Msg) :
    (asyncGetBassLevel st resp).2.2 =
      { ctype := "get", feature := FEATURE_BASS_LEVEL } := by
  unfold asyncGetBassLevel
  cases resp with
  | none => rfl
  | some m =>
      repeat' split
      all_goals rfl

/-- C9: `async_detect_subwoofer` returns true without sending any probe
(`set`) command when the current bass level is outside 0–2; when the level
is within 0–2 it probes with `set` bass −1, and an ACK response makes it
return true after sending a command restoring the prior level (which is
also restored in the cache), while a non-ACK or absent response makes it
return false. -/
theorem detectSubwooferSpec (st : ClientState)
    (respGet respProbe respRevert : Option Msg) :
    ((asyncGetBassLevel st respGet).1 < MIN_BASS_LEVEL_NO_SUB ∨
       (asyncGetBassLevel st respGet).1 > MAX_BASS_LEVEL_NO_SUB →
       (asyncDetectSubwoofer st respGet respProbe respRevert).1 = true ∧
       (asyncDetectSubwoofer st respGet respProbe respRevert).2.2 =
         [{ ctype := "get", feature := FEATURE_BASS_LEVEL }] ∧
       ∀ c ∈ (asyncDetectSubwoofer st respGet respProbe respRevert).2.2,
         c.ctype ≠ "set") ∧
    (MIN_BASS_LEVEL_NO_SUB ≤ (asyncGetBassLevel st respGet).1 →
       (asyncGetBassLevel st respGet).1 ≤ MAX_BASS_LEVEL_NO_SUB →
       isAckResponse respProbe = true →
       (asyncDetectSubwoofer st respGet respProbe respRevert).1 = true ∧
       (asyncDetectSubwoofer st respGet respProbe respRevert).2.1.bassLevel =
         (asyncGetBassLevel st respGet).1 ∧
       (asyncDetectSubwoofer st respGet respProbe respRevert).2.2 =
         [{ ctype := "get", feature := FEATURE_BASS_LEVEL },
          { ctype := "set", feature := FEATURE_BASS_LEVEL,
            value := some (.num (-1)) },
          { ctype := "set", feature := FEATURE_BASS_LEVEL,
            value := some (.num ((asyncGetBassLevel st respGet).1)) }]) ∧
    (MIN_BASS_LEVEL_NO_SUB ≤ (asyncGetBassLevel st respGet).1 →
       (asyncGetBassLevel st respGet).1 ≤ MAX_BASS_LEVEL_NO_SUB →
       isAckResponse respProbe = false →
       (asyncDetectSubwoofer st respGet respProbe respRevert).1 = false) := by
  have hcmd := asyncGetBassLevel_cmd st respGet
  refine ⟨?_, ?_, ?_⟩
  · intro hout
    simp only [asyncDetectSubwoofer]
    rw [if_pos hout]
    refine ⟨rfl, by rw [hcmd], ?_⟩
    intro c hc
    simp only [List.mem_singleton] at hc
    subst hc
    rw [hcmd]
    decide
  · intro h1 h2 hack
    simp only [asyncDetectSubwoofer]
    rw [if_neg (by simp only [MIN_BASS_LEVEL_NO_SUB, MAX_BASS_LEVEL_NO_SUB]
          at h1 h2 ⊢; omega),
      if_pos hack]
    refine ⟨rfl, rfl, by rw [hcmd]⟩
  · intro h1 h2 hack
    simp only [asyncDetectSubwoofer]
    rw [if_neg (by simp only [MIN_BASS_LEVEL_NO_SUB, MAX_BASS_LEVEL_NO_SUB]
          at h1 h2 ⊢; omega),
      if_neg (by simp [hack])]

/-- A plain ACK result message, used as a concrete probe response. -/
def ackResultMsg : Msg :=
  { mtype := some "result", value := some (.str "ACK") }

theorem detectSubwooferSpecWitness :
    MIN_BASS_LEVEL_NO_SUB ≤
        (asyncGetBassLevel (initClientState "host" "name") none).1 ∧
      isAckResponse (some ackResultMsg) = true ∧
      (asyncDetectSubwoofer (initClientState "host" "name") none
          (some ackResultMsg) none).1 = true := by
  refine ⟨by decide, rfl, ?_⟩
  exact ((detectSubwooferSpec (initClientState "host" "name") none
    (some ackResultMsg) none).2.1 (by decide) (by decide) rfl).1

/-! ## C5: the 50 → 53 volume transition -/

/-- C5: starting a transition from 50 to 53 with a 100 ms interval sets the
displayed value to 53 synchronously (before the background task produces
any event); the task's trace consists of a 100 ms wait immediately followed
by each step command, for the step values 51, 52, 53 truncated after the
first failing step; with every step succeeding, exactly the three step
commands 51, 52, 53 are issued in that order, each preceded by the 100 ms
wait. -/
theorem volumeTransitionSpec :
    (∀ ok : Int → Bool,
       (asyncSetNativeValue 50 53 100 ok).syncEvents =
         [.setDisplayed 53, .writeHaState] ∧
       (asyncSetNativeValue 50 53 100 ok).taskEvents =
         ((stopAfterFirstFail ok [51, 52, 53]).map
           (fun n => [TransitionEvent.sleepMs 100, .sendSetVolume n])).flatten) ∧
    (asyncSetNativeValue 50 53 100 (fun _ => true)).taskEvents =
      [.sleepMs 100, .sendSetVolume 51, .sleepMs 100, .sendSetVolume 52,
       .sleepMs 100, .sendSetVolume 53] := by
  constructor
  · intro ok
    constructor
    · unfold asyncSetNativeValue
      rw [if_neg (by norm_num)]
    · unfold asyncSetNativeValue
      rw [if_neg (by norm_num)]
      show volumeTransitionTrace 50 53 100 ok = _
      cases h1 : ok 51 <;> cases h2 : ok 52 <;> cases h3 : ok 53 <;>
        simp [volumeTransitionTrace, transitionLoop, stopAfterFirstFail,
          h1, h2, h3]
  · simp [asyncSetNativeValue, volumeTransitionTrace, transitionLoop]

/-! ## C10: the caller's command dict is never mutated -/

theorem mapFix_of_keysNe (t : Nat) (k : String) (v : Json) :
    ∀ l : List (Nat × PyDict), (∀ p ∈ l, p.1 ≠ t) →
      l.map (fun p => if p.1 == t then (p.1, dictSet p.2 k v) else p) = l := by
  intro l
  induction l with
  | nil => intro _; rfl
  | cons p rest ih =>
      intro hne
      have hb : (p.1 == t) = false := by
        simpa using hne p (by simp)
      simp only [List.map_cons, hb, if_false, Bool.false_eq_true,
        List.cons.injEq, true_and]
      exact ih (fun q hq => hne q (by simp [hq]))

theorem findCell_append_last (r : Nat) (x : Nat × PyDict) (hx : x.1 ≠ r) :
    ∀ l : List (Nat × PyDict),
      (l ++ [x]).find? (fun p => p.1 == r) = l.find? (fun p => p.1 == r) := by
  have hbx : (x.1 == r) = false := by simpa using hx
  intro l
  induction l with
  | nil => simp [List.find?, hbx]
  | cons p rest ih =>
      cases hp : (p.1 == r) <;>
        simp [List.find?, List.cons_append, hp, ih]

theorem findCell_append_self (r : Nat) (d : PyDict) :
    ∀ l : List (Nat × PyDict), (∀ p ∈ l, p.1 ≠ r) →
      (l ++ [(r, d)]).find? (fun p => p.1 == r) = some (r, d) := by
  intro l
  induction l with
  | nil => simp [List.find?]
  | cons p rest ih =>
      intro hne
      have hb : (p.1 == r) = false := by
        simpa using hne p (by simp)
      simp [List.find?, List.cons_append, hb,
        ih (fun q hq => hne q (by simp [hq]))]

/-- C10: the id-assignment section of `async_send_command` never mutates the
caller's dict: after it runs, the dict the caller passed in (including any
`id` the caller supplied) reads back exactly as before, while the wire dict
is the copy with the correlator-assigned id stored under `"id"`. -/
theorem sendCommandLeavesCallerDictUnchanged (h : DictHeap) (callerRef : Nat)
    (counter : Int) (hwf : heapWFB h = true) (href : callerRef < h.next) :
    readDict (sendCommandAssignId h callerRef counter).1 callerRef =
      readDict h callerRef ∧
    readDict (sendCommandAssignId h callerRef counter).1
        (sendCommandAssignId h callerRef counter).2.1 =
      dictSet (readDict h callerRef) "id" (.num (nextCommandId counter)) ∧
    (sendCommandAssignId h callerRef counter).2.2.1 = nextCommandId counter := by
  have hkeys : ∀ p ∈ h.cells, p.1 ≠ h.next := by
    intro p hp
    have := List.all_eq_true.mp hwf p hp
    simp only [decide_eq_true_eq] at this
    omega
  have hcells :
      (sendCommandAssignId h callerRef counter).1.cells =
        h.cells ++ [(h.next, dictSet (readDict h callerRef) "id"
          (.num (nextCommandId counter)))] := by
    show ((h.cells ++ [(h.next, readDict h callerRef)]).map
        (fun p => if p.1 == h.next then
          (p.1, dictSet p.2 "id" (.num (nextCommandId counter))) else p)) = _
    rw [List.map_append, mapFix_of_keysNe _ _ _ h.cells hkeys]
    simp
  refine ⟨?_, ?_, rfl⟩
  · show readDict (sendCommandAssignId h callerRef counter).1 callerRef = _
    unfold readDict
    rw [hcells, findCell_append_last callerRef _ (by simp; omega)]
  · show readDict (sendCommandAssignId h callerRef counter).1 h.next = _
    unfold readDict
    rw [hcells, findCell_append_self h.next _ h.cells hkeys]
    rfl

theorem sendCommandLeavesCallerDictUnchangedWitness :
    heapWFB ⟨[(0, [("id", Json.num 99)])], 1⟩ = true ∧ 0 < 1 ∧
      readDict (sendCommandAssignId ⟨[(0, [("id", Json.num 99)])], 1⟩ 0 10).1 0 =
        readDict ⟨[(0, [("id", Json.num 99)])], 1⟩ 0 :=
  ⟨rfl, by decide,
    (sendCommandLeavesCallerDictUnchanged ⟨[(0, [("id", Json.num 99)])], 1⟩ 0 10
      rfl (by decide)).1⟩

/-! ## C2: unregistering a notification callback -/

theorem count_le_one_erase_eq_filter :
    ∀ (l : List Nat) (a : Nat), l.count a ≤ 1 →
      l.erase a = l.filter (fun x => x ≠ a) := by
  intro l
  induction l with
  | nil => intro a _; rfl
  | cons b rest ih =>
      intro a hcount
      by_cases hb : b = a
      · subst hb
        rw [List.count_cons_self] at hcount
        have hnotmem : b ∉ rest := by
          have hz : rest.count b = 0 := by omega
          simpa [List.count_eq_zero] using hz
        rw [List.erase_cons_head]
        have hstep : List.filter (fun x => decide (x ≠ b)) (b :: rest) =
            List.filter (fun x => decide (x ≠ b)) rest := by
          simp [List.filter_cons]
        rw [hstep]
        refine (List.filter_eq_self.mpr ?_).symm
        intro x hx
        simp only [ne_eq, decide_eq_true_eq]
        rintro rfl
        exact hnotmem hx
      · have hbb : (b == a) = false := by simpa using hb
        rw [List.erase_cons_tail (by simp [hbb])]
        have hcount2 : rest.count a ≤ 1 := by
          rw [List.count_cons] at hcount
          omega
        simp [List.filter_cons, hb, ih a hcount2]

theorem findCallback_map_keyfix (g : String)
    (fix : String × List Nat → String × List Nat)
    (hfix : ∀ p, (fix p).1 = p.1) :
    ∀ l : List (String × List Nat),
      (l.map fix).find? (fun p => p.1 == g) =
        (l.find? (fun p => p.1 == g)).map fix := by
  intro l
  induction l with
  | nil => rfl
  | cons p rest ih =>
      cases hp : (p.1 == g) with
      | true =>
          have : ((fix p).1 == g) = true := by rw [hfix]; exact hp
          simp [List.find?, this, hp]
      | false =>
          have : ((fix p).1 == g) = false := by rw [hfix]; exact hp
          simp [List.find?, this, hp, ih]

/-- C2 (spec-modelled `unregister_notification_callback`): for a callback
registered at most once for a feature, unregistering it removes exactly
that handle from the feature's ordered callback list — afterwards a
notification for the feature invokes, in the original order, exactly the
other callbacks, and the callback lists of all other features are
untouched. -/
theorem unregisterRemovesExactlyThatCallback (st : ClientState)
    (feature : String) (cb : Nat)
    (hcount : (dispatchedCallbacks st (some feature)).count cb ≤ 1) :
    dispatchedCallbacks (unregisterNotificationCallback st feature cb)
        (some feature) =
      (dispatchedCallbacks st (some feature)).filter (fun x => x ≠ cb) ∧
    cb ∉ dispatchedCallbacks (unregisterNotificationCallback st feature cb)
        (some feature) ∧
    (∀ g, g ≠ feature →
       dispatchedCallbacks (unregisterNotificationCallback st feature cb)
           (some g) =
         dispatchedCallbacks st (some g)) := by
  have hkey : ∀ p : String × List Nat,
      ((if p.1 == feature then (p.1, p.2.erase cb) else p) : String × List Nat).1 =
        p.1 := by
    intro p
    split <;> rfl
  have hmain :
      dispatchedCallbacks (unregisterNotificationCallback st feature cb)
          (some feature) =
        (dispatchedCallbacks st (some feature)).filter (fun x => x ≠ cb) := by
    unfold dispatchedCallbacks unregisterNotificationCallback
    by_cases hf : feature = ""
    · simp [hf]
    · simp only [hf, if_false, Bool.false_eq_true, if_neg, not_false_eq_true]
      rw [findCallback_map_keyfix feature _ hkey]
      cases hfind : st.notificationCallbacks.find? (fun p => p.1 == feature) with
      | none => rfl
      | some p =>
          have hp0 := List.find?_some hfind
          simp only [beq_iff_eq] at hp0
          have hbeq : (p.1 == feature) = true := by simp [hp0]
          show (if (p.1 == feature) = true then (p.1, p.2.erase cb) else p).2 =
            List.filter (fun x => decide (x ≠ cb)) p.2
          rw [if_pos hbeq]
          exact count_le_one_erase_eq_filter p.2 cb
            (by simpa [dispatchedCallbacks, hf, hfind] using hcount)
  refine ⟨hmain, ?_, ?_⟩
  · rw [hmain]
    simp
  · intro g hg
    unfold dispatchedCallbacks unregisterNotificationCallback
    by_cases hgempty : g = ""
    · simp [hgempty]
    · simp only [hgempty, if_false, Bool.false_eq_true, if_neg,
        not_false_eq_true]
      rw [findCallback_map_keyfix g _ hkey]
      cases hfind : st.notificationCallbacks.find? (fun p => p.1 == g) with
      | none => rfl
      | some p =>
          have hp0 := List.find?_some hfind
          simp only [beq_iff_eq] at hp0
          have hpne : (p.1 == feature) = false := by simp [hp0, hg]
          show (if (p.1 == feature) = true then (p.1, p.2.erase cb) else p).2 =
            p.2
          rw [if_neg (by simp [hpne])]

theorem unregisterRemovesExactlyThatCallbackWitness :
    (dispatchedCallbacks
        ({ initClientState "host" "name" with
            notificationCallbacks :=
              [(FEATURE_VOLUME, [1, 2, 3]), (FEATURE_POWER, [7])] } :
          ClientState) (some FEATURE_VOLUME)).count 2 ≤ 1 ∧
      dispatchedCallbacks
          (unregisterNotificationCallback
            { initClientState "host" "name" with
                notificationCallbacks :=
                  [(FEATURE_VOLUME, [1, 2, 3]), (FEATURE_POWER, [7])] }
            FEATURE_VOLUME 2) (some FEATURE_VOLUME) = [1, 3] := by
  refine ⟨by decide, ?_⟩
  rw [(unregisterRemovesExactlyThatCallback _ FEATURE_VOLUME 2 (by decide)).1]
  decide

/-! ## C3: send_command returns a matching response or times out -/

theorem pendingLookup_set_self (id : Int) (f : FutureState) :
    ∀ l : List (Int × FutureState), pendingLookup (pendingSet l id f) id = some f := by
  intro l
  induction l with
  | nil => simp [pendingSet, pendingLookup, List.find?]
  | cons p rest ih =>
      by_cases hp : p.1 = id
      · simp [pendingSet, pendingLookup, List.find?, hp]
      · have hb : (p.1 == id) = false := by simpa using hp
        simpa [pendingSet, pendingLookup, List.find?, hb] using ih

theorem pendingLookup_set_other (id j : Int) (f : FutureState) (hne : id ≠ j) :
    ∀ l : List (Int × FutureState),
      pendingLookup (pendingSet l j f) id = pendingLookup l id := by
  have hjb : (j == id) = false := by simpa using fun h => hne h.symm
  intro l
  induction l with
  | nil => simp [pendingSet, pendingLookup, List.find?, hjb]
  | cons p rest ih =>
      by_cases hpj : p.1 = j
      · have hpi : (p.1 == id) = false := by
          simpa [hpj] using fun h => hne h.symm
        simp [pendingSet, pendingLookup, List.find?, hpj, hpi, hjb]
      · have hb : (p.1 == j) = false := by simpa using hpj
        cases hpi : (p.1 == id) <;>
          simpa [pendingSet, pendingLookup, List.find?, hb, hpi] using ih

theorem pendingLookup_erase_self (id : Int) :
    ∀ l : List (Int × FutureState),
      pendingLookup (pendingErase l id) id = none := by
  intro l
  induction l with
  | nil => rfl
  | cons p rest ih =>
      by_cases hp : p.1 = id
      · simpa [pendingErase, pendingLookup, List.filter, hp] using ih
      · have hb : (p.1 == id) = false := by simpa using hp
        simpa [pendingErase, pendingLookup, List.filter, List.find?, hb,
          bne] using ih

/-- Processing one inbound message preserves the invariant that the future
registered under `cid` can only hold a `result` whose id is `cid`: only
`_resolve_pending_response` writes futures, and it writes a message into the
entry keyed by that message's own id. -/
theorem processIncoming_preserves_matching (cid : Int) (s : ClientState)
    (m : Msg)
    (hinv : ∀ r : Msg, pendingLookup s.pendingResponses cid =
      some (.done r) → r.id = some cid) :
    ∀ r : Msg, pendingLookup (processIncomingMessage s m).pendingResponses cid =
      some (.done r) → r.id = some cid := by
  intro r hlook
  rw [show (processIncomingMessage s m).pendingResponses =
      (if m.mtype = some "result" then resolvePendingResponse s m
       else s).pendingResponses from updateInternalState_pending _ _ _] at hlook
  by_cases hres : m.mtype = some "result"
  · rw [if_pos hres] at hlook
    unfold resolvePendingResponse at hlook
    cases hid : m.id with
    | none => simp only [hid] at hlook; exact hinv r hlook
    | some j =>
        simp only [hid] at hlook
        by_cases hj : cid = j
        · subst hj
          cases hl0 : pendingLookup s.pendingResponses cid with
          | none => simp only [hl0] at hlook; exact absurd hlook (by simp)
          | some f =>
              cases f with
              | pending =>
                  simp only [hl0] at hlook
                  rw [pendingLookup_set_self] at hlook
                  injection hlook with he
                  injection he with he2
                  subst he2
                  exact hid
              | done r2 =>
                  simp only [hl0, Option.some.injEq,
                    FutureState.done.injEq] at hlook
                  subst hlook
                  exact hinv _ hl0
              | failed e => simp only [hl0] at hlook; exact absurd hlook (by simp)
              | cancelled => simp only [hl0] at hlook; exact absurd hlook (by simp)
        · cases hl0 : pendingLookup s.pendingResponses j with
          | none => simp only [hl0] at hlook; exact hinv r hlook
          | some f =>
              cases f with
              | pending =>
                  simp only [hl0] at hlook
                  rw [pendingLookup_set_other cid j _ hj] at hlook
                  exact hinv r hlook
              | done r2 => simp only [hl0] at hlook; exact hinv r hlook
              | failed e => simp only [hl0] at hlook; exact hinv r hlook
              | cancelled => simp only [hl0] at hlook; exact hinv r hlook
  · rw [if_neg hres] at hlook
    exact hinv r hlook

theorem foldl_processIncoming_preserves_matching (cid : Int) :
    ∀ (msgs : List Msg) (s : ClientState),
      (∀ r : Msg, pendingLookup s.pendingResponses cid = some (.done r) →
        r.id = some cid) →
      ∀ r : Msg,
        pendingLookup (msgs.foldl processIncomingMessage s).pendingResponses
          cid = some (.done r) → r.id = some cid := by
  intro msgs
  induction msgs with
  | nil => intro s hinv; exact hinv
  | cons m rest ih =>
      intro s hinv
      exact ih (processIncomingMessage s m)
        (processIncoming_preserves_matching cid s m hinv)

theorem awaitResponse_spec (st3 : ClientState) (cid : Int)
    (incoming : List Msg)
    (hinv : ∀ r : Msg, pendingLookup st3.pendingResponses cid =
      some (.done r) → r.id = some cid) :
    ((awaitResponse st3 cid incoming).1 = none ∨
      ∃ m : Msg, (awaitResponse st3 cid incoming).1 = some m ∧
        m.id = some cid) ∧
    pendingLookup (awaitResponse st3 cid incoming).2.pendingResponses cid =
      none := by
  unfold awaitResponse
  refine ⟨?_, pendingLookup_erase_self cid _⟩
  cases hlook : pendingLookup
      ((incoming.foldl processIncomingMessage st3).pendingResponses) cid with
  | none => left; simp [hlook]
  | some f =>
      cases f with
      | pending => left; simp [hlook]
      | failed e => left; simp [hlook]
      | cancelled => left; simp [hlook]
      | done m =>
          right
          exact ⟨m, by simp [hlook],
            foldl_processIncoming_preserves_matching cid incoming st3 hinv m
              hlook⟩

/-- The tail of `async_send_command` after the listener is ensured: with a
fresh pending future registered under the assigned id, the awaited outcome
is either `none` or a message with that id, and the entry is popped. -/
theorem sendFinishSpec (stMid : ClientState) (incoming : List Msg) :
    ((Except.ok (awaitResponse
          { stMid with
              commandIdCounter := nextCommandId stMid.commandIdCounter,
              pendingResponses := pendingSet stMid.pendingResponses
                (nextCommandId stMid.commandIdCounter) .pending }
          (nextCommandId stMid.commandIdCounter) incoming).1 :
        Except PyErr (Option Msg)) = .ok none ∨
      ∃ m : Msg,
        (Except.ok (awaitResponse
            { stMid with
                commandIdCounter := nextCommandId stMid.commandIdCounter,
                pendingResponses := pendingSet stMid.pendingResponses
                  (nextCommandId stMid.commandIdCounter) .pending }
            (nextCommandId stMid.commandIdCounter) incoming).1 :
          Except PyErr (Option Msg)) = .ok (some m) ∧
          m.id = some (nextCommandId stMid.commandIdCounter)) ∧
    pendingLookup
        (awaitResponse
          { stMid with
              commandIdCounter := nextCommandId stMid.commandIdCounter,
              pendingResponses := pendingSet stMid.pendingResponses
                (nextCommandId stMid.commandIdCounter) .pending }
          (nextCommandId stMid.commandIdCounter) incoming).2.pendingResponses
        (nextCommandId stMid.commandIdCounter) = none := by
  have hinv : ∀ r : Msg,
      pendingLookup
        (pendingSet stMid.pendingResponses
          (nextCommandId stMid.commandIdCounter) .pending)
        (nextCommandId stMid.commandIdCounter) = some (.done r) →
      r.id = some (nextCommandId stMid.commandIdCounter) := by
    intro r hl
    rw [pendingLookup_set_self] at hl
    exact absurd hl (by simp)
  have hs := awaitResponse_spec
    { stMid with
        commandIdCounter := nextCommandId stMid.commandIdCounter,
        pendingResponses := pendingSet stMid.pendingResponses
          (nextCommandId stMid.commandIdCounter) .pending }
    (nextCommandId stMid.commandIdCounter) incoming hinv
  refine ⟨?_, hs.2⟩
  rcases hs.1 with h | ⟨m, hm, hid⟩
  · exact Or.inl (congrArg Except.ok h)
  · exact Or.inr ⟨m, congrArg Except.ok hm, hid⟩

/-- C3: a command sent while connected (with the socket write succeeding)
never raises: the call returns either the timeout outcome `none`, or a
response message whose id is exactly the id the correlator assigned
(`_get_next_command_id` of the current counter); in every case the pending
entry for that id is removed from the Pending Command Table. -/
theorem sendCommandMatchingIdOrTimeout (st : ClientState)
    (cmd : List (String × Json)) (incoming : List Msg)
    (hconn : st.connected = true) (hw : st.writer = true)
    (hr : st.reader = true) :
    ((asyncSendCommand st cmd true true incoming).result = .ok none ∨
      ∃ m : Msg,
        (asyncSendCommand st cmd true true incoming).result = .ok (some m) ∧
          m.id = some (nextCommandId st.commandIdCounter)) ∧
    pendingLookup
        (asyncSendCommand st cmd true true incoming).state.pendingResponses
        (nextCommandId st.commandIdCounter) = none := by
  unfold asyncSendCommand
  simp only [hconn, hw, hr, reduceIte, and_self, not_true_eq_false]
  cases hlt : st.listenerTask with
  | none =>
      exact ⟨(sendFinishSpec (ensureListener st) incoming).1,
        (sendFinishSpec (ensureListener st) incoming).2⟩
  | some t =>
      cases t with
      | running =>
          exact ⟨(sendFinishSpec st incoming).1, (sendFinishSpec st incoming).2⟩
      | finished =>
          exact ⟨(sendFinishSpec (ensureListener st) incoming).1,
            (sendFinishSpec (ensureListener st) incoming).2⟩

def witnessSendState : ClientState :=
  { initClientState "host" "name" with
      connected := true, writer := true, reader := true }

def witnessResponseMsg : Msg :=
  { id := some 11, mtype := some "result", feature := some FEATURE_POWER,
    value := some (.str "on") }

theorem sendCommandMatchingIdOrTimeoutWitness :
    witnessSendState.connected = true ∧
      nextCommandId witnessSendState.commandIdCounter = 11 ∧
      (asyncSendCommand witnessSendState [("type", Json.str "get")] true true
          [witnessResponseMsg]).result = .ok (some witnessResponseMsg) ∧
      ((asyncSendCommand witnessSendState [("type", Json.str "get")] true true
            [witnessResponseMsg]).result = .ok none ∨
        ∃ m : Msg,
          (asyncSendCommand witnessSendState [("type", Json.str "get")] true
              true [witnessResponseMsg]).result = .ok (some m) ∧
            m.id = some (nextCommandId witnessSendState.commandIdCounter)) := by
  refine ⟨rfl, rfl, rfl, ?_⟩
  exact (sendCommandMatchingIdOrTimeout witnessSendState
    [("type", Json.str "get")] [witnessResponseMsg] rfl rfl rfl).1

/-! ## C6/C7 groundwork: decimal digits -/

theorem digitVal_digitChar (n : Nat) (h : n < 10) :
    digitVal (digitChar n) = n := by
  interval_cases n <;> decide

theorem digitChar_isDigit (n : Nat) (h : n < 10) :
    (digitChar n).isDigit = true := by
  interval_cases n <;> decide

theorem digitChar_ne_zero (n : Nat) (h0 : n ≠ 0) (h : n < 10) :
    digitChar n ≠ '0' := by
  interval_cases n <;> first | (exact absurd rfl h0) | decide

theorem natToDigits_ne_nil (n : Nat) : natToDigits n ≠ [] := by
  unfold natToDigits
  split <;> simp

theorem natToDigits_all_digits (n : Nat) :
    ∀ c ∈ natToDigits n, c.isDigit = true := by
  induction n using Nat.strong_induction_on with
  | _ n ih =>
      unfold natToDigits
      split
      · next h =>
          intro c hc
          simp only [List.mem_singleton] at hc
          subst hc
          exact digitChar_isDigit n h
      · next h =>
          intro c hc
          rw [List.mem_append] at hc
          rcases hc with hc | hc
          · exact ih (n / 10) (Nat.div_lt_self (by omega) (by omega)) c hc
          · simp only [List.mem_singleton] at hc
            subst hc
            exact digitChar_isDigit _ (Nat.mod_lt _ (by omega))

theorem digitsToNat_append_one (l : List Char) (c : Char) :
    digitsToNat (l ++ [c]) = digitsToNat l * 10 + digitVal c := by
  unfold digitsToNat
  rw [List.foldl_append]
  rfl

theorem digitsToNat_natToDigits (n : Nat) :
    digitsToNat (natToDigits n) = n := by
  induction n using Nat.strong_induction_on with
  | _ n ih =>
      unfold natToDigits
      split
      · next h =>
          show digitsToNat [digitChar n] = n
          unfold digitsToNat
          simp [digitVal_digitChar n h]
      · next h =>
          rw [digitsToNat_append_one,
            ih (n / 10) (Nat.div_lt_self (by omega) (by omega)),
            digitVal_digitChar _ (Nat.mod_lt _ (by omega))]
          omega

theorem natToDigits_head_ne_zero (n : Nat) (hn : n ≠ 0) :
    ∀ c rest, natToDigits n = c :: rest → c ≠ '0' := by
  induction n using Nat.strong_induction_on with
  | _ n ih =>
      intro c rest heq
      unfold natToDigits at heq
      split at heq
      · next h =>
          injection heq with h1 _
          subst h1
          exact digitChar_ne_zero n hn h
      · next h =>
          cases hd : natToDigits (n / 10) with
          | nil => exact absurd hd (natToDigits_ne_nil _)
          | cons c0 rest0 =>
              rw [hd, List.cons_append] at heq
              injection heq with h1 _
              subst h1
              exact ih (n / 10) (Nat.div_lt_self (by omega) (by omega))
                (by omega) c0 rest0 hd

/-! ## Groundwork: takeWhile/dropWhile over an all-satisfying prefix -/

theorem takeWhile_append_of_all (p : Char → Bool) :
    ∀ (l rest : List Char), (∀ c ∈ l, p c = true) →
      (∀ c, rest.head? = some c → p c = false) →
      (l ++ rest).takeWhile p = l ∧ (l ++ rest).dropWhile p = rest := by
  intro l
  induction l with
  | nil =>
      intro rest _ hhead
      cases rest with
      | nil => exact ⟨rfl, rfl⟩
      | cons c r =>
          have := hhead c rfl
          simp [List.takeWhile, List.dropWhile, this]
  | cons c l2 ih =>
      intro rest hall hhead
      have hc : p c = true := hall c (by simp)
      have := ih rest (fun d hd => hall d (by simp [hd])) hhead
      simp [List.takeWhile, List.dropWhile, hc, this.1, this.2]

theorem dropWhile_append_of_all (p : Char → Bool) :
    ∀ (l rest : List Char), (∀ c ∈ l, p c = true) →
      (l ++ rest).dropWhile p = rest.dropWhile p := by
  intro l
  induction l with
  | nil => intro rest _; rfl
  | cons c l2 ih =>
      intro rest hall
      have hc : p c = true := hall c (by simp)
      simp [List.dropWhile, hc, ih rest (fun d hd => hall d (by simp [hd]))]

theorem dropWhile_cons_of_neg (p : Char → Bool) (c : Char) (l : List Char)
    (h : p c = false) : (c :: l).dropWhile p = c :: l := by
  simp [List.dropWhile, h]

/-! ## Groundwork: the number scanner on canonical integer digits -/

/-- The first character of `rest` would be absorbed into a number literal
ending right before it. -/
def numContinues : List Char → Bool
  | [] => false
  | c :: _ => c.isDigit || c = '.' || c = 'e' || c = 'E'

theorem parseFracPart_none (cs : List Char)
    (h : ∀ c, cs.head? = some c → (c = '.') = False) :
    parseFracPart cs = none := by
  cases cs with
  | nil => rfl
  | cons c rest =>
      have := h c rfl
      simp [parseFracPart, this]

theorem parseExpPart_none (cs : List Char)
    (h : ∀ c, cs.head? = some c → (c = 'e' || c = 'E') = false) :
    parseExpPart cs = none := by
  cases cs with
  | nil => rfl
  | cons c rest =>
      have := h c rfl
      simp only [parseExpPart, this, Bool.false_eq_true, if_false]

theorem parseNumTail_int (neg : Bool) (intDs : List Char) (rest : List Char)
    (hrest : numContinues rest = false) :
    parseNumTail neg intDs rest =
      some (.num (if neg then -(digitsToNat intDs : Int)
        else (digitsToNat intDs : Int)), rest) := by
  have hfrac : parseFracPart rest = none := by
    cases rest with
    | nil => rfl
    | cons c0 r =>
        unfold numContinues at hrest
        simp only [Bool.or_eq_false_iff] at hrest
        have hdot : ¬ c0 = '.' := by simpa using hrest.1.1.2
        simp [parseFracPart, hdot]
  have hexp : parseExpPart rest = none := by
    cases rest with
    | nil => rfl
    | cons c0 r =>
        unfold numContinues at hrest
        simp only [Bool.or_eq_false_iff] at hrest
        have he : ¬ c0 = 'e' := by simpa using hrest.1.2
        have hE : ¬ c0 = 'E' := by simpa using hrest.2
        simp [parseExpPart, he, hE]
  unfold parseNumTail
  rw [hfrac, hexp]

theorem parseNumAfterSign_digits (neg : Bool) (m : Nat) (rest : List Char)
    (hrest : numContinues rest = false) :
    parseNumAfterSign neg (natToDigits m ++ rest) =
      some (.num (if neg then -(m : Int) else (m : Int)), rest) := by
  have hdigits := natToDigits_all_digits m
  have hrd : ∀ c, rest.head? = some c → c.isDigit = false := by
    intro c hc
    cases rest with
    | nil => simp at hc
    | cons c0 r =>
        have hce : c0 = c := by simpa using hc
        subst hce
        unfold numContinues at hrest
        simp only [Bool.or_eq_false_iff] at hrest
        exact hrest.1.1.1
  by_cases hm : m = 0
  · subst hm
    have h0 : natToDigits 0 = ['0'] := by
      unfold natToDigits
      rw [dif_pos (by omega)]
      rfl
    rw [h0, List.cons_append]
    simp only [parseNumAfterSign, if_true, List.nil_append]
    rw [parseNumTail_int neg ['0'] rest hrest]
    rfl
  · cases hd : natToDigits m with
    | nil => exact absurd hd (natToDigits_ne_nil _)
    | cons c ds =>
        have hc0 : c ≠ '0' := natToDigits_head_ne_zero m hm c ds hd
        have hcd : c.isDigit = true := hdigits c (by rw [hd]; simp)
        have hds : ∀ d ∈ ds, d.isDigit = true := by
          intro d hdm
          exact hdigits d (by rw [hd]; simp [hdm])
        rw [List.cons_append]
        simp only [parseNumAfterSign]
        rw [if_neg hc0, if_pos hcd]
        have htd := takeWhile_append_of_all Char.isDigit ds rest hds hrd
        rw [htd.1, htd.2, parseNumTail_int neg (c :: ds) rest hrest]
        have hnum : digitsToNat (c :: ds) = m := by
          rw [show (c :: ds) = natToDigits m from hd.symm, digitsToNat_natToDigits]
        rw [hnum]

theorem parseNumber_encInt (n : Int) (rest : List Char)
    (hrest : numContinues rest = false) :
    parseNumber (encInt n ++ rest) = some (.num n, rest) := by
  unfold encInt
  by_cases hn : n < 0
  · rw [if_pos hn, List.cons_append]
    simp only [parseNumber, if_true]
    rw [parseNumAfterSign_digits true n.natAbs rest hrest]
    have hval : (if (true : Bool) = true then -((n.natAbs : Int))
        else ((n.natAbs : Int))) = n := by
      rw [if_pos rfl]
      omega
    rw [hval]
  · rw [if_neg hn]
    cases hd : natToDigits n.natAbs with
    | nil => exact absurd hd (natToDigits_ne_nil _)
    | cons c ds =>
        have hcd : c.isDigit = true :=
          natToDigits_all_digits n.natAbs c (by rw [hd]; simp)
        have hcne : ¬ c = '-' := by
          intro heq
          subst heq
          exact absurd hcd (by decide)
        have hmain := parseNumAfterSign_digits false n.natAbs rest hrest
        rw [hd, List.cons_append] at hmain
        rw [List.cons_append]
        simp only [parseNumber]
        rw [if_neg hcne, hmain]
        have hval : (if (false : Bool) = true then -((n.natAbs : Int))
            else ((n.natAbs : Int))) = n := by
          rw [if_neg (by decide)]
          omega
        rw [hval]

/-! ## Groundwork: the string scanner on canonically escaped text -/

theorem escChars_cons (c : Char) (rest : List Char) :
    escChars (c :: rest) = escChar c ++ escChars rest := by
  simp [escChars]

theorem scanString_quote (tail : List Char) :
    scanString ('"' :: tail) = some ([], tail) := rfl

theorem scanString_backslash (rest : List Char) :
    scanString ('\\' :: rest) = scanEscape rest := rfl

theorem scanEscape_quote (rest : List Char) :
    scanEscape ('"' :: rest) =
      (scanString rest).map (fun p => ('"' :: p.1, p.2)) := rfl

theorem scanEscape_backslash (rest : List Char) :
    scanEscape ('\\' :: rest) =
      (scanString rest).map (fun p => ('\\' :: p.1, p.2)) := rfl

theorem scanString_plain (c : Char) (rest : List Char) (h1 : ¬ c = '"')
    (h2 : ¬ c = '\\') (h3 : ¬ c.toNat < 0x20) :
    scanString (c :: rest) =
      (scanString rest).map (fun p => (c :: p.1, p.2)) := by
  simp only [scanString]
  rw [if_neg h1, if_neg h2, if_neg h3]

theorem scanString_escChars :
    ∀ (cs tail : List Char), (∀ c ∈ cs, 0x20 ≤ c.toNat) →
      scanString (escChars cs ++ '"' :: tail) = some (cs, tail) := by
  intro cs
  induction cs with
  | nil =>
      intro tail _
      show scanString ('"' :: tail) = some ([], tail)
      exact scanString_quote tail
  | cons c rest ih =>
      intro tail hok
      have hc : 0x20 ≤ c.toNat := hok c (by simp)
      have hih := ih tail (fun d hd => hok d (by simp [hd]))
      rw [escChars_cons]
      by_cases h1 : c = '"'
      · subst h1
        rw [show escChar '"' = ['\\', '"'] from rfl]
        simp only [List.cons_append, List.nil_append, List.append_assoc]
        rw [scanString_backslash ('"' :: (escChars rest ++ '"' :: tail)),
          scanEscape_quote (escChars rest ++ '"' :: tail), hih]
        rfl
      · by_cases h2 : c = '\\'
        · subst h2
          rw [show escChar '\\' = ['\\', '\\'] from rfl]
          simp only [List.cons_append, List.nil_append, List.append_assoc]
          rw [scanString_backslash ('\\' :: (escChars rest ++ '"' :: tail)),
            scanEscape_backslash (escChars rest ++ '"' :: tail), hih]
          rfl
        · have hesc : escChar c = [c] := by simp [escChar, h1, h2]
          rw [hesc]
          simp only [List.cons_append, List.nil_append, List.append_assoc]
          rw [scanString_plain c (escChars rest ++ '"' :: tail) h1 h2
            (by omega), hih]
          rfl

/-! ## Groundwork: heads and lengths of the canonical encoding -/

theorem digit_not_ws (c : Char) (h : c.isDigit = true) :
    jsonWs c = false ∧ c ≠ ']' := by
  constructor
  · cases hc : jsonWs c with
    | false => rfl
    | true =>
        have h4 : ((c = ' ' ∨ c = '\t') ∨ c = '\n') ∨ c = '\r' := by
          simpa [jsonWs] using hc
        rcases h4 with ((h1 | h1) | h1) | h1 <;> subst h1 <;>
          exact absurd h (by decide)
  · intro heq
    subst heq
    exact absurd h (by decide)

theorem encInt_head (n : Int) :
    ∃ c cs2, encInt n = c :: cs2 ∧ jsonWs c = false ∧ c ≠ ']' := by
  unfold encInt
  by_cases hn : n < 0
  · exact ⟨'-', natToDigits n.natAbs, by rw [if_pos hn], by decide, by decide⟩
  · rw [if_neg hn]
    cases hd : natToDigits n.natAbs with
    | nil => exact absurd hd (natToDigits_ne_nil _)
    | cons c ds =>
        have hcd : c.isDigit = true :=
          natToDigits_all_digits n.natAbs c (by rw [hd]; simp)
        exact ⟨c, ds, rfl, (digit_not_ws c hcd).1, (digit_not_ws c hcd).2⟩

theorem encE_head_spec (v : Json) (hwf : wfB v = true) :
    ∃ c cs2, encE v = c :: cs2 ∧ jsonWs c = false ∧ c ≠ ']' := by
  cases v with
  | null => exact ⟨'n', ['u', 'l', 'l'], by simp [encE], by decide, by decide⟩
  | bool b =>
      cases b with
      | true => exact ⟨'t', ['r', 'u', 'e'], by simp [encE], by decide, by decide⟩
      | false =>
          exact ⟨'f', ['a', 'l', 's', 'e'], by simp [encE], by decide, by decide⟩
  | num n =>
      obtain ⟨c, cs2, heq, hws, hne⟩ := encInt_head n
      exact ⟨c, cs2, by simp [encE, heq], hws, hne⟩
  | flt raw => exact absurd hwf (by simp [wfB])
  | str s =>
      exact ⟨'"', escChars s.data ++ ['"'], by simp [encE], by decide, by decide⟩
  | arr xs =>
      cases xs with
      | nil => exact ⟨'[', [']'], by simp [encE], by decide, by decide⟩
      | cons w ws =>
          exact ⟨'[', encElemsChain w ws, by simp [encE], by decide, by decide⟩
  | obj kvs =>
      cases kvs with
      | nil => exact ⟨'{', ['}'], by simp [encE], by decide, by decide⟩
      | cons kv rest =>
          exact ⟨'{', '"' :: encMembersChain kv.1 kv.2 rest,
            by cases kv; simp [encE], by decide, by decide⟩

theorem encE_ne_nil (v : Json) (hwf : wfB v = true) : encE v ≠ [] := by
  obtain ⟨c, cs2, heq, _, _⟩ := encE_head_spec v hwf
  rw [heq]
  simp

theorem encE_size_bounds (k : Nat) :
    (∀ v : Json, sizeOf v ≤ k → wfB v = true → jsize v ≤ (encE v).length) ∧
    (∀ (v : Json) (vs : List Json), sizeOf v + sizeOf vs ≤ k →
      wfList (v :: vs) = true →
      1 + jsize v + jsizeList vs ≤ (encElemsChain v vs).length) ∧
    (∀ (ks : String) (v : Json) (kvs : List (String × Json)),
      sizeOf v + sizeOf kvs ≤ k → wfPairs ((ks, v) :: kvs) = true →
      1 + jsize v + jsizePairs kvs ≤ (encMembersChain ks v kvs).length) := by
  induction k using Nat.strong_induction_on with
  | _ k ih =>
      refine ⟨?_, ?_, ?_⟩
      · intro v hsz hwf
        cases v with
        | null => simp [jsize, encE]
        | bool b => cases b <;> simp [jsize, encE]
        | num n =>
            obtain ⟨c, cs2, heq, _, _⟩ := encInt_head n
            simp [jsize, encE, heq]
        | flt raw => exact absurd hwf (by simp [wfB])
        | str s => simp [jsize, encE]
        | arr xs =>
            cases xs with
            | nil => simp [jsize, jsizeList, encE]
            | cons w ws =>
                have hwl : wfList (w :: ws) = true := by simpa [wfB] using hwf
                have hm : sizeOf w + sizeOf ws < k := by
                  simp only [Json.arr.sizeOf_spec, List.cons.sizeOf_spec] at hsz
                  omega
                have h2 := (ih _ hm).2.1 w ws (le_refl _) hwl
                simp only [jsize, jsizeList, encE, List.length_cons]
                omega
        | obj kvs =>
            cases kvs with
            | nil => simp [jsize, jsizePairs, encE]
            | cons kv rest =>
                obtain ⟨ks, v⟩ := kv
                have hwp : wfPairs ((ks, v) :: rest) = true := by
                  have := hwf
                  simp only [wfB, Bool.and_eq_true] at this
                  exact this.2
                have hm : sizeOf v + sizeOf rest < k := by
                  simp only [Json.obj.sizeOf_spec, List.cons.sizeOf_spec,
                    Prod.mk.sizeOf_spec] at hsz
                  omega
                have h2 := (ih _ hm).2.2 ks v rest (le_refl _) hwp
                simp only [jsize, jsizePairs, encE, List.length_cons]
                omega
      · intro v vs hsz hwl
        have hwv : wfB v = true := by
          simp only [wfList, Bool.and_eq_true] at hwl
          exact hwl.1
        cases vs with
        | nil =>
            have hm : sizeOf v < k := by
              simp only [List.nil.sizeOf_spec] at hsz
              omega
            have h1 := (ih _ hm).1 v (le_refl _) hwv
            simp only [encElemsChain, jsizeList, List.length_append,
              List.length_cons, List.length_nil]
            omega
        | cons w ws =>
            have hwl2 : wfList (w :: ws) = true := by
              simp only [wfList, Bool.and_eq_true] at hwl ⊢
              exact hwl.2
            have hmv : sizeOf v < k := by
              simp only [List.cons.sizeOf_spec] at hsz
              omega
            have hm2 : sizeOf w + sizeOf ws < k := by
              simp only [List.cons.sizeOf_spec] at hsz
              omega
            have h1 := (ih _ hmv).1 v (le_refl _) hwv
            have h2 := (ih _ hm2).2.1 w ws (le_refl _) hwl2
            simp only [encElemsChain, jsizeList, List.length_append,
              List.length_cons]
            omega
      · intro ks v kvs hsz hwp
        have hwv : wfB v = true := by
          simp only [wfPairs, Bool.and_eq_true] at hwp
          exact hwp.1.2
        cases kvs with
        | nil =>
            have hm : sizeOf v < k := by
              simp only [List.nil.sizeOf_spec] at hsz
              omega
            have h1 := (ih _ hm).1 v (le_refl _) hwv
            simp only [encMembersChain, jsizePairs, List.length_append,
              List.length_cons, List.length_nil]
            omega
        | cons kv2 rest =>
            obtain ⟨k2, v2⟩ := kv2
            have hwp2 : wfPairs ((k2, v2) :: rest) = true := by
              simp only [wfPairs, Bool.and_eq_true] at hwp ⊢
              exact hwp.2
            have hmv : sizeOf v < k := by
              simp only [List.cons.sizeOf_spec, Prod.mk.sizeOf_spec] at hsz
              omega
            have hm2 : sizeOf v2 + sizeOf rest < k := by
              simp only [List.cons.sizeOf_spec, Prod.mk.sizeOf_spec] at hsz
              omega
            have h1 := (ih _ hmv).1 v (le_refl _) hwv
            have h2 := (ih _ hm2).2.2 k2 v2 rest (le_refl _) hwp2
            simp only [encMembersChain, jsizePairs, List.length_append,
              List.length_cons]
            omega

theorem jsize_le_encE_length (v : Json) (hwf : wfB v = true) :
    jsize v ≤ (encE v).length :=
  (encE_size_bounds (sizeOf v)).1 v (le_refl _) hwf

/-! ## Groundwork: the parse-after-print roundtrip -/

/-- The characters following the encoding of `v` do not change how the
number scanner tokenises it (only relevant when `v` is an integer). -/
def numGuardB : Json → List Char → Bool
  | .num _, rest => !(numContinues rest)
  | _, _ => true

theorem numGuardB_of_head (v : Json) (c : Char) (tl : List Char)
    (h : (c.isDigit || c = '.' || c = 'e' || c = 'E') = false) :
    numGuardB v (c :: tl) = true := by
  cases v <;> simp [numGuardB, numContinues, h]

theorem strOk_mem (s : String) (h : strOk s = true) :
    ∀ c ∈ s.data, 0x20 ≤ c.toNat := by
  intro c hc
  have := List.all_eq_true.mp h c hc
  simpa using this

theorem stringMk_data (s : String) : String.mk s.data = s := rfl

theorem jsize_pos (v : Json) : 1 ≤ jsize v := by
  cases v <;> simp [jsize] <;> omega

theorem encInt_head_facts (n : Int) :
    ∃ c cs2, encInt n = c :: cs2 ∧ ¬c = '"' ∧ ¬c = '{' ∧ ¬c = '[' ∧
      ¬c = 'n' ∧ ¬c = 't' ∧ ¬c = 'f' := by
  unfold encInt
  by_cases hn : n < 0
  · rw [if_pos hn]
    exact ⟨'-', natToDigits n.natAbs, rfl, by decide, by decide, by decide,
      by decide, by decide, by decide⟩
  · rw [if_neg hn]
    cases hd : natToDigits n.natAbs with
    | nil => exact absurd hd (natToDigits_ne_nil _)
    | cons c ds =>
        have hcd : c.isDigit = true :=
          natToDigits_all_digits n.natAbs c (by rw [hd]; simp)
        refine ⟨c, ds, rfl, ?_, ?_, ?_, ?_, ?_, ?_⟩ <;> intro heq <;>
          rw [heq] at hcd <;> exact absurd hcd (by decide)

theorem encElemsChain_head (w : Json) (ws : List Json) (hwv : wfB w = true) :
    ∃ c2 tl2, encElemsChain w ws = c2 :: tl2 ∧ jsonWs c2 = false ∧
      c2 ≠ ']' := by
  obtain ⟨c2, tl2, heq, hws, hne⟩ := encE_head_spec w hwv
  cases ws with
  | nil => exact ⟨c2, tl2 ++ [']'], by simp [encElemsChain, heq], hws, hne⟩
  | cons w2 rest =>
      exact ⟨c2, tl2 ++ ',' :: encElemsChain w2 rest,
        by simp [encElemsChain, heq], hws, hne⟩

theorem dictSet_append (k : String) (v : Json) :
    ∀ d : List (String × Json), (∀ q ∈ d, q.1 ≠ k) →
      dictSet d k v = d ++ [(k, v)] := by
  intro d
  induction d with
  | nil => intro _; rfl
  | cons q rest ih =>
      intro hall
      obtain ⟨k0, v0⟩ := q
      have hne : k0 ≠ k := hall (k0, v0) (by simp)
      simp [dictSet, hne, ih (fun q hq => hall q (by simp [hq]))]

theorem pyDictOfPairs_nodup_aux :
    ∀ (kvs d : List (String × Json)), nodupKeys kvs = true →
      (∀ p ∈ kvs, ∀ q ∈ d, q.1 ≠ p.1) →
      kvs.foldl (fun d kv => dictSet d kv.1 kv.2) d = d ++ kvs := by
  intro kvs
  induction kvs with
  | nil => intro d _ _; simp
  | cons kv rest ih =>
      intro d hnd hdis
      obtain ⟨k, v⟩ := kv
      simp only [nodupKeys, Bool.and_eq_true, Bool.not_eq_true'] at hnd
      have hknotin : ∀ q ∈ rest, q.1 ≠ k := by
        intro q hq heq
        have := List.any_eq_false.mp hnd.1 q hq
        simp [heq] at this
      have hset : dictSet d k v = d ++ [(k, v)] :=
        dictSet_append k v d (fun q hq => hdis (k, v) (by simp) q hq)
      have hdis2 : ∀ p ∈ rest, ∀ q ∈ d ++ [(k, v)], q.1 ≠ p.1 := by
        intro p hp q hq
        rcases List.mem_append.mp hq with hq | hq
        · exact hdis p (by simp [hp]) q hq
        · have : q = (k, v) := by simpa using hq
          subst this
          exact fun heq => hknotin p hp heq.symm
      have := ih (d ++ [(k, v)]) hnd.2 hdis2
      simp only [List.foldl_cons, hset, this, List.append_assoc,
        List.cons_append, List.nil_append]

/-- `dict(pairs)` is the identity on a pair list without repeated keys. -/
theorem pyDictOfPairs_nodup (kvs : List (String × Json))
    (h : nodupKeys kvs = true) : pyDictOfPairs kvs = kvs := by
  have := pyDictOfPairs_nodup_aux kvs [] h (by simp)
  simpa [pyDictOfPairs] using this

/-- The scanner inverts the canonical encoder: on well-formed values the
value parser, member loop and element loop each consume exactly the encoded
text and return the original value, for any fuel at least the value's
recursion depth. -/
theorem parse_encE_roundtrip (fuel : Nat) :
    (∀ (v : Json) (rest : List Char), wfB v = true → jsize v ≤ fuel →
      numGuardB v rest = true →
      parseVal fuel (encE v ++ rest) = some (v, rest)) ∧
    (∀ (ks : String) (v : Json) (kvs : List (String × Json))
        (acc : List (String × Json)) (rest : List Char),
      wfPairs ((ks, v) :: kvs) = true →
      1 + jsize v + jsizePairs kvs ≤ fuel →
      parseMembers fuel (encMembersChain ks v kvs ++ rest) acc =
        some (.obj (pyDictOfPairs (acc ++ (ks, v) :: kvs)), rest)) ∧
    (∀ (v : Json) (vs : List Json) (acc : List Json) (rest : List Char),
      wfList (v :: vs) = true → 1 + jsize v + jsizeList vs ≤ fuel →
      parseElems fuel (encElemsChain v vs ++ rest) acc =
        some (.arr (acc ++ v :: vs), rest)) := by
  induction fuel using Nat.strong_induction_on with
  | _ fuel ih =>
      refine ⟨?_, ?_, ?_⟩
      · intro v rest hwf hsz hguard
        cases fuel with
        | zero => exact absurd hsz (by have := jsize_pos v; omega)
        | succ f =>
            cases v with
            | null =>
                rw [show encE Json.null = ['n', 'u', 'l', 'l'] from
                  by simp [encE]]
                rfl
            | bool b =>
                cases b with
                | true =>
                    rw [show encE (Json.bool true) = ['t', 'r', 'u', 'e'] from
                      by simp [encE]]
                    rfl
                | false =>
                    rw [show encE (Json.bool false) =
                      ['f', 'a', 'l', 's', 'e'] from by simp [encE]]
                    rfl
            | num n =>
                have hnum : numContinues rest = false := by
                  have he : numGuardB (Json.num n) rest =
                      !(numContinues rest) := rfl
                  rw [he] at hguard
                  simpa using hguard
                obtain ⟨c, cs2, heq, h1, h2, h3, h4, h5, h6⟩ :=
                  encInt_head_facts n
                have hpn := parseNumber_encInt n rest hnum
                rw [heq] at hpn
                simp only [List.cons_append] at hpn
                rw [show encE (Json.num n) = encInt n from by simp [encE],
                  heq]
                simp only [List.cons_append]
                simp only [parseVal]
                rw [if_neg h1, if_neg h2, if_neg h3, if_neg h4, if_neg h5,
                  if_neg h6, hpn]
            | flt raw => exact absurd hwf (by simp [wfB])
            | str s =>
                have hok := strOk_mem s (by simpa [wfB] using hwf)
                have hscan := scanString_escChars s.data rest hok
                rw [show encE (Json.str s) =
                  '"' :: (escChars s.data ++ ['"']) from by simp [encE]]
                simp only [List.cons_append, List.nil_append,
                  List.append_assoc]
                simp only [parseVal, reduceIte]
                rw [hscan]
                rfl
            | arr xs =>
                cases xs with
                | nil =>
                    rw [show encE (Json.arr []) = ['[', ']'] from
                      by simp [encE]]
                    rfl
                | cons w ws =>
                    have hwl : wfList (w :: ws) = true := by
                      simpa [wfB] using hwf
                    have hwv : wfB w = true := by
                      simp only [wfList, Bool.and_eq_true] at hwl
                      exact hwl.1
                    obtain ⟨c2, tl2, heq2, hws2, hne2⟩ :=
                      encElemsChain_head w ws hwv
                    have hb : 1 + jsize w + jsizeList ws ≤ f := by
                      simp only [jsize, jsizeList] at hsz
                      omega
                    have h3 := (ih f (by omega)).2.2 w ws [] rest hwl hb
                    rw [show encE (Json.arr (w :: ws)) =
                      '[' :: encElemsChain w ws from by simp [encE], heq2]
                    simp only [List.cons_append]
                    simp only [parseVal, reduceIte,
                      dropWhile_cons_of_neg jsonWs c2 (tl2 ++ rest) hws2]
                    rw [if_neg hne2, ← List.cons_append, ← heq2, h3]
                    simp
            | obj kvs =>
                cases kvs with
                | nil =>
                    rw [show encE (Json.obj []) = ['{', '}'] from
                      by simp [encE]]
                    rfl
                | cons kv rest2 =>
                    obtain ⟨ks, v⟩ := kv
                    have hsplit : nodupKeys ((ks, v) :: rest2) = true ∧
                        wfPairs ((ks, v) :: rest2) = true := by
                      simpa [wfB, Bool.and_eq_true] using hwf
                    have hb : 1 + jsize v + jsizePairs rest2 ≤ f := by
                      simp only [jsize, jsizePairs] at hsz
                      omega
                    have h2 := (ih f (by omega)).2.1 ks v rest2 [] rest
                      hsplit.2 hb
                    rw [show encE (Json.obj ((ks, v) :: rest2)) =
                      '{' :: '"' :: encMembersChain ks v rest2 from
                      by simp [encE]]
                    simp only [List.cons_append]
                    show parseMembers f (encMembersChain ks v rest2 ++ rest)
                      [] = some (Json.obj ((ks, v) :: rest2), rest)
                    rw [h2, pyDictOfPairs_nodup _ (by simpa using hsplit.1)]
                    simp
      · intro ks v kvs acc rest hwp hsz
        cases fuel with
        | zero => exact absurd hsz (by omega)
        | succ f =>
            have hparts : (strOk ks = true ∧ wfB v = true) ∧
                wfPairs kvs = true := by
              simpa [wfPairs, Bool.and_eq_true] using hwp
            have hokks := strOk_mem ks hparts.1.1
            have hwv : wfB v = true := hparts.1.2
            obtain ⟨cv, tv, heqv, hwsv, _⟩ := encE_head_spec v hwv
            cases kvs with
            | nil =>
                have hvsz : jsize v ≤ f := by
                  simp only [jsizePairs] at hsz
                  omega
                have hv := (ih f (by omega)).1 v ('}' :: rest) hwv hvsz
                  (numGuardB_of_head v '}' rest (by decide))
                have hdropv : (encE v ++ '}' :: rest).dropWhile jsonWs =
                    encE v ++ '}' :: rest := by
                  rw [heqv, List.cons_append]
                  exact dropWhile_cons_of_neg _ _ _ hwsv
                simp only [encMembersChain, List.append_assoc,
                  List.cons_append, List.nil_append]
                simp only [parseMembers]
                rw [scanString_escChars ks.data
                  (':' :: (encE v ++ '}' :: rest)) hokks]
                simp only [dropWhile_cons_of_neg jsonWs ':'
                    (encE v ++ '}' :: rest) (by decide), hdropv, hv,
                  dropWhile_cons_of_neg jsonWs '}' rest (by decide),
                  stringMk_data]
            | cons kv2 rest3 =>
                obtain ⟨k2, v2⟩ := kv2
                have hvsz : jsize v ≤ f := by
                  simp only [jsizePairs] at hsz
                  omega
                have hb : 1 + jsize v2 + jsizePairs rest3 ≤ f := by
                  simp only [jsizePairs] at hsz
                  omega
                have hv := (ih f (by omega)).1 v
                  (',' :: '"' :: (encMembersChain k2 v2 rest3 ++ rest)) hwv
                  hvsz (numGuardB_of_head v ',' _ (by decide))
                have h2 := (ih f (by omega)).2.1 k2 v2 rest3
                  (acc ++ [(ks, v)]) rest hparts.2 hb
                have hdropv : List.dropWhile jsonWs (encE v ++
                    ',' :: '"' :: (encMembersChain k2 v2 rest3 ++ rest)) =
                    encE v ++
                      ',' :: '"' :: (encMembersChain k2 v2 rest3 ++ rest) := by
                  rw [heqv, List.cons_append]
                  exact dropWhile_cons_of_neg _ _ _ hwsv
                simp only [encMembersChain, List.append_assoc,
                  List.cons_append, List.nil_append]
                simp only [parseMembers]
                rw [scanString_escChars ks.data
                  (':' :: (encE v ++
                    ',' :: '"' :: (encMembersChain k2 v2 rest3 ++ rest)))
                  hokks]
                simp only [dropWhile_cons_of_neg jsonWs ':'
                    (encE v ++
                      ',' :: '"' :: (encMembersChain k2 v2 rest3 ++ rest))
                    (by decide), hdropv, hv,
                  dropWhile_cons_of_neg jsonWs ','
                    ('"' :: (encMembersChain k2 v2 rest3 ++ rest))
                    (by decide),
                  dropWhile_cons_of_neg jsonWs '"'
                    (encMembersChain k2 v2 rest3 ++ rest) (by decide)]
                rw [stringMk_data, h2]
                simp only [List.append_assoc, List.cons_append,
                  List.nil_append]
      · intro v vs acc rest hwl hsz
        cases fuel with
        | zero => exact absurd hsz (by omega)
        | succ f =>
            have hparts : wfB v = true ∧ wfList vs = true := by
              simpa [wfList, Bool.and_eq_true] using hwl
            cases vs with
            | nil =>
                have hvsz : jsize v ≤ f := by
                  simp only [jsizeList] at hsz
                  omega
                have hv := (ih f (by omega)).1 v (']' :: rest) hparts.1 hvsz
                  (numGuardB_of_head v ']' rest (by decide))
                simp only [encElemsChain, List.append_assoc,
                  List.cons_append, List.nil_append]
                simp only [parseElems]
                simp only [hv,
                  dropWhile_cons_of_neg jsonWs ']' rest (by decide)]
            | cons w ws =>
                have hwlw : wfList (w :: ws) = true := hparts.2
                have hww : wfB w = true := by
                  simp only [wfList, Bool.and_eq_true] at hwlw
                  exact hwlw.1
                have hvsz : jsize v ≤ f := by
                  simp only [jsizeList] at hsz
                  omega
                have hb : 1 + jsize w + jsizeList ws ≤ f := by
                  simp only [jsizeList] at hsz
                  omega
                obtain ⟨c2, tl2, heq2, hws2, _⟩ := encElemsChain_head w ws hww
                have hv := (ih f (by omega)).1 v
                  (',' :: (encElemsChain w ws ++ rest)) hparts.1 hvsz
                  (numGuardB_of_head v ',' _ (by decide))
                have h3 := (ih f (by omega)).2.2 w ws (acc ++ [v]) rest hwlw
                  hb
                have hdrop : (encElemsChain w ws ++ rest).dropWhile jsonWs =
                    encElemsChain w ws ++ rest := by
                  rw [heq2, List.cons_append]
                  exact dropWhile_cons_of_neg _ _ _ hws2
                simp only [encElemsChain, List.append_assoc,
                  List.cons_append, List.nil_append]
                simp only [parseElems]
                simp only [hv,
                  dropWhile_cons_of_neg jsonWs ','
                    (encElemsChain w ws ++ rest) (by decide), hdrop, h3]
                simp only [List.append_assoc, List.cons_append,
                  List.nil_append]

theorem rawDecode_encE (v : Json) (rest : List Char) (hwf : wfB v = true)
    (hguard : numGuardB v rest = true) :
    rawDecode (encE v ++ rest) = some (v, rest) := by
  have hlen : jsize v ≤ (encE v ++ rest).length := by
    have h1 := jsize_le_encE_length v hwf
    rw [List.length_append]
    omega
  exact (parse_encE_roundtrip (encE v ++ rest).length).1 v rest hwf hlen
    hguard

/-- A buffer of encoded values, each followed by its separator text (empty,
whitespace, newlines, trailing newline or not). -/
def renderPieces : List (Json × String) → List Char
  | [] => []
  | (v, sep) :: rest => encE v ++ sep.data ++ renderPieces rest

theorem encObj_head (kvs : List (String × Json)) :
    ∃ tl, encE (Json.obj kvs) = '{' :: tl := by
  cases kvs with
  | nil => exact ⟨['}'], by simp [encE]⟩
  | cons kv rest =>
      exact ⟨'"' :: encMembersChain kv.1 kv.2 rest, by cases kv; simp [encE]⟩

theorem renderPieces_length (pieces : List (Json × String))
    (h : ∀ p ∈ pieces, wfB p.1 = true) :
    pieces.length ≤ (renderPieces pieces).length := by
  induction pieces with
  | nil => simp [renderPieces]
  | cons piece rest ih =>
      obtain ⟨v, sep⟩ := piece
      have hwf := h (v, sep) (by simp)
      have h1 : 1 ≤ (encE v).length := by
        cases he : encE v with
        | nil => exact absurd he (encE_ne_nil v hwf)
        | cons c cs => simp
      have h2 := ih (fun p hp => h p (by simp [hp]))
      simp only [renderPieces, List.length_cons, List.length_append]
      omega

/-- The decode loop on a buffer of whitespace-separated well-formed objects
followed by arbitrary trailing bytes whose whitespace-stripped form does not
scan: it appends exactly the encoded values, in order, to the accumulator. -/
theorem decodeLoop_render :
    ∀ (pieces : List (Json × String)) (fuel : Nat) (lead bad : List Char)
      (acc : List Json),
      (∀ p ∈ pieces, (∃ kvs, p.1 = Json.obj kvs) ∧ wfB p.1 = true ∧
        ∀ c ∈ p.2.data, pyIsSpace c = true) →
      (∀ c ∈ lead, pyIsSpace c = true) →
      rawDecode (bad.dropWhile pyIsSpace) = none →
      pieces.length ≤ fuel →
      decodeLoop fuel (lead ++ renderPieces pieces ++ bad) acc =
        acc ++ pieces.map Prod.fst := by
  intro pieces
  induction pieces with
  | nil =>
      intro fuel lead bad acc _ hlead hbad _
      cases fuel with
      | zero => simp [decodeLoop]
      | succ f =>
          simp only [renderPieces, List.append_nil, List.map_nil]
          simp only [decodeLoop]
          rw [dropWhile_append_of_all pyIsSpace lead bad hlead]
          cases hb : bad.dropWhile pyIsSpace with
          | nil => simp
          | cons c r =>
              rw [hb] at hbad
              simp only [hbad]
  | cons piece rest ih =>
      intro fuel lead bad acc hpieces hlead hbad hle
      obtain ⟨v, sep⟩ := piece
      obtain ⟨⟨kvs, hobj⟩, hwf, hsep⟩ := hpieces (v, sep) (by simp)
      subst hobj
      cases fuel with
      | zero =>
          simp only [List.length_cons] at hle
          omega
      | succ f =>
          obtain ⟨tl, htl⟩ := encObj_head kvs
          have hdec := rawDecode_encE (Json.obj kvs)
            (sep.data ++ (renderPieces rest ++ bad)) hwf rfl
          rw [htl, List.cons_append] at hdec
          have hih := ih f sep.data bad (acc ++ [Json.obj kvs])
            (fun p hp => hpieces p (by simp [hp])) hsep hbad
            (by simp only [List.length_cons] at hle; omega)
          simp only [renderPieces, List.append_assoc, List.map_cons]
          simp only [decodeLoop]
          rw [dropWhile_append_of_all pyIsSpace lead _ hlead, htl,
            List.cons_append,
            dropWhile_cons_of_neg pyIsSpace '{' _ (by decide)]
          simp only [hdec]
          rw [← List.append_assoc, hih]
          simp only [List.append_assoc, List.cons_append, List.nil_append]

/-- C6: for every buffer of two or more concatenated well-formed JSON
objects, each followed by optional whitespace/newline separator text (with
or without a trailing newline), `_decode_json_stream` decodes exactly those
objects in buffer order; in particular the concrete buffers
`\x7b"a":1\x7d\x7b"b":2\x7d` and `\x7b"a":1\x7d\n\x7b"b":2\x7d\n` both
decode to the same two messages. -/
theorem decodeStreamConcatenated (pieces : List (Json × String))
    (hN : 2 ≤ pieces.length)
    (hpieces : ∀ p ∈ pieces, (∃ kvs, p.1 = Json.obj kvs) ∧ wfB p.1 = true ∧
      ∀ c ∈ p.2.data, pyIsSpace c = true) :
    decodeJsonStream (String.mk (renderPieces pieces)) =
      pieces.map Prod.fst ∧
    decodeJsonStream "\x7b\"a\":1\x7d\x7b\"b\":2\x7d" =
      [Json.obj [("a", Json.num 1)], Json.obj [("b", Json.num 2)]] ∧
    decodeJsonStream "\x7b\"a\":1\x7d\n\x7b\"b\":2\x7d\n" =
      [Json.obj [("a", Json.num 1)], Json.obj [("b", Json.num 2)]] := by
  refine ⟨?_, rfl, rfl⟩
  have hlen : pieces.length ≤ (renderPieces pieces).length :=
    renderPieces_length pieces (fun p hp => (hpieces p hp).2.1)
  have h := decodeLoop_render pieces (renderPieces pieces).length [] [] []
    hpieces (by simp) rfl hlen
  simpa [decodeJsonStream] using h

theorem decodeStreamConcatenatedWitness :
    decodeJsonStream (String.mk (renderPieces
      [(Json.obj [("a", Json.num 1)], "\n"),
       (Json.obj [("b", Json.num 2)], "\n")])) =
      [Json.obj [("a", Json.num 1)], Json.obj [("b", Json.num 2)]] :=
  (decodeStreamConcatenated
    [(Json.obj [("a", Json.num 1)], "\n"),
     (Json.obj [("b", Json.num 2)], "\n")]
    (by decide)
    (by
      intro p hp
      cases hp with
      | head =>
          exact ⟨⟨_, rfl⟩, by simp [wfB, wfPairs, strOk, nodupKeys],
            by decide⟩
      | tail _ hp2 =>
          cases hp2 with
          | head =>
              exact ⟨⟨_, rfl⟩, by simp [wfB, wfPairs, strOk, nodupKeys],
                by decide⟩
          | tail _ hp3 => cases hp3)).1

/-- C7: when the tail of the buffer after the well-formed objects does not
scan as JSON (after leading-whitespace stripping), `_decode_json_stream`
returns exactly the objects decoded before that offset and discards the
malformed remainder; the decoder itself is a total function
(`decodeJsonStream` catches every scan failure as `none`), so decoding
never raises for any input string. -/
theorem decodeStreamStopsAtInvalid (pieces : List (Json × String))
    (bad : List Char)
    (hpieces : ∀ p ∈ pieces, (∃ kvs, p.1 = Json.obj kvs) ∧ wfB p.1 = true ∧
      ∀ c ∈ p.2.data, pyIsSpace c = true)
    (hbad : rawDecode (bad.dropWhile pyIsSpace) = none) :
    decodeJsonStream (String.mk (renderPieces pieces ++ bad)) =
      pieces.map Prod.fst := by
  have hlen : pieces.length ≤ (renderPieces pieces ++ bad).length := by
    have := renderPieces_length pieces (fun p hp => (hpieces p hp).2.1)
    rw [List.length_append]
    omega
  have h := decodeLoop_render pieces (renderPieces pieces ++ bad).length []
    bad [] hpieces (by simp) hbad hlen
  simpa [decodeJsonStream] using h

theorem decodeStreamStopsAtInvalidWitness :
    decodeJsonStream (String.mk (renderPieces
      [(Json.obj [("a", Json.num 1)], "")] ++ ['\x7b', '"', 'b', '"'])) =
      [Json.obj [("a", Json.num 1)]] :=
  decodeStreamStopsAtInvalid [(Json.obj [("a", Json.num 1)], "")]
    ['\x7b', '"', 'b', '"']
    (by
      intro p hp
      cases hp with
      | head =>
          exact ⟨⟨_, rfl⟩, by simp [wfB, wfPairs, strOk, nodupKeys],
            by decide⟩
      | tail _ hp2 => cases hp2)
    rfl

end BraviaQuad
